import Mathlib

/-!
Shallow embedding of the S3-compatible object storage engine (the `S3`
durable object and its JWT helper).  JavaScript strings and byte blobs are
both modelled as lists of natural numbers (Unicode code units / bytes);
SQL tables are lists of row structures, and each handler is a pure function
from a store (plus an environment of external primitives: hashing, clock,
UUIDs, URI/JWT decoding) to a new store and a structured response.
-/

namespace DoS3

/-- JS strings and byte blobs: sequences of code units / bytes. -/
abbrev Str := List Nat

/-- Convert a Lean string literal to its code-unit list. -/
def strOf (s : String) : Str := s.data.map Char.toNat

/-- The `/` character. -/
def slash : Nat := 47

/-- `CHUNK_SIZE`: 1 MiB chunks to stay under the 2 MiB SQLite row limit. -/
def CHUNK_SIZE : Nat := 1024 * 1024

/-- `computeDepth`: number of `/` characters in the key. -/
def computeDepth (key : Str) : Nat := key.count slash

/-- Helper for `computeParent`: scans the reversed (trimmed) key and keeps
everything from the last `/` on, returned un-reversed. -/
def parentAux : Str → Str
  | [] => []
  | c :: rest => if c = slash then (c :: rest).reverse else parentAux rest

/-- `computeParent`: strip a single trailing slash, then the prefix through
the last remaining `/`, or the empty string. -/
def computeParent (key : Str) : Str :=
  let trimmed := if key.getLast? = some slash then key.dropLast else key
  parentAux trimmed.reverse

/-- SQLite text comparison (memcmp order on code units): strict less-than. -/
def strLt : Str → Str → Bool
  | [], [] => false
  | [], _ :: _ => true
  | _ :: _, [] => false
  | a :: as, b :: bs => if a < b then true else if b < a then false else strLt as bs

/-- Non-strict text order. -/
def strLe (x y : Str) : Bool := !(strLt y x)

/-- Insert into a list ordered by a boolean comparison. -/
def insertByLe (le : α → α → Bool) (a : α) : List α → List α
  | [] => [a]
  | b :: bs => if le a b then a :: b :: bs else b :: insertByLe le a bs

/-- Insertion sort modelling SQL `ORDER BY` (stable). -/
def sortByLe (le : α → α → Bool) : List α → List α
  | [] => []
  | a :: as => insertByLe le a (sortByLe le as)

/-- One row of the `objects` table. -/
structure ObjRow where
  bucket : Str
  key : Str
  chunkIndex : Nat
  size : Nat
  etag : Str
  lastModified : Str
  contentType : Str
  data : Str
  depth : Option Nat
  parent : Option Str
deriving DecidableEq

/-- One row of the `multipart_uploads` table. -/
structure UploadRow where
  uploadId : Str
  bucket : Str
  key : Str
  createdAt : Str
  contentType : Str
deriving DecidableEq

/-- One row of the `multipart_parts` table. -/
structure PartRow where
  uploadId : Str
  partNumber : Nat
  chunkIndex : Nat
  size : Nat
  etag : Str
  data : Str
deriving DecidableEq

/-- The tenant store: the three SQL tables created by migration 0 (with the
`depth`/`parent` columns of migration 1 already present on `objects`). -/
structure Store where
  objects : List ObjRow
  uploads : List UploadRow
  parts : List PartRow
deriving DecidableEq

def Store.empty : Store := ⟨[], [], []⟩

/-- External primitives consumed by the engine: MD5 hex digest, the clock,
UUID generation, `decodeURIComponent`, and the JWT primitives
(`JSON.parse(atob(_))`, which returns `none` when it would throw, and
`verifyToken`, which returns `none` when it throws or rejects). -/
structure JwtClaims where
  sub : Option Str
deriving DecidableEq

structure TokenPayload where
  sub : Str
  bucket : Str
deriving DecidableEq

structure Env where
  md5Hex : Str → Str
  nowIso : Str
  uuidHex : Str
  decodeURI : Str → Str
  decodeJwtPayload : Str → Option JwtClaims
  verifyTok : Str → Option TokenPayload
  duration : Nat
  newSubId : Nat
  newSubFails : Bool

/-- Structured response payloads (XML bodies kept structured). -/
inductive Payload
  | empty
  | bytes (data : Str)
  | errorXml (code : String) (message : String)
  | listing (contents : List ObjRow) (commonPrefixes : List Str)
      (isTruncated : Bool) (nextToken : Str)
  | initiateResult (uploadId : Str)
  | completeResult (etag : Str)
  | copyResult (etag : Str)
  | uploadsListing (uploads : List UploadRow) (isTruncated : Bool)
deriving DecidableEq

structure Resp where
  status : Nat
  payload : Payload
  contentLength : Option Nat := none
  etagHeader : Option Str := none
deriving DecidableEq

def errorResponse (code message : String) (status : Nat) : Resp :=
  { status := status, payload := .errorXml code message }

/-- Row predicate for `WHERE bucket = ? AND key = ?`. -/
def ObjRow.isFor (r : ObjRow) (bucket key : Str) : Bool :=
  r.bucket == bucket && r.key == key

/-- `DELETE FROM objects WHERE bucket = ? AND key = ?`. -/
def delMatching (objects : List ObjRow) (bucket key : Str) : List ObjRow :=
  objects.filter fun r => !(r.isFor bucket key)

/-- The chunk slices the writer loop produces for the data past the first
chunk: repeatedly take `CHUNK_SIZE` bytes (fuel bounds the iteration and is
instantiated with the list length). -/
def chunkTail : Nat → Str → List Str
  | 0, _ => []
  | _, [] => []
  | fuel + 1, l => l.take CHUNK_SIZE :: chunkTail fuel (l.drop CHUNK_SIZE)

def chunksOf (l : Str) : List Str := chunkTail l.length l

def octetStream : Str := strOf "application/octet-stream"

/-- Chunk 0 of a written object: full metadata, the first
`min(size, CHUNK_SIZE)` bytes (an empty blob when `size = 0`). -/
def objChunk0 (bucket key data etag lastModified contentType : Str) : ObjRow :=
  ⟨bucket, key, 0, data.length, etag, lastModified, contentType,
    if data.length = 0 then [] else data.take (min CHUNK_SIZE data.length),
    some (computeDepth key), some (computeParent key)⟩

/-- The non-zero chunks of a written object: only when `size > CHUNK_SIZE`,
the further `CHUNK_SIZE` slices with zero size, empty-string metadata and
null `depth`/`parent`. -/
def objRest (bucket key data : Str) : List ObjRow :=
  if CHUNK_SIZE < data.length then
    (chunksOf (data.drop CHUNK_SIZE)).enum.map fun p =>
      ⟨bucket, key, p.1 + 1, 0, [], [], [], p.2, none, none⟩
  else []

/-- The rows `putObject` inserts for `(bucket, key)` with body `data`. -/
def objectRowsOf (bucket key data etag lastModified contentType : Str) :
    List ObjRow :=
  objChunk0 bucket key data etag lastModified contentType ::
    objRest bucket key data

/-- `putObject`: hash the body, delete any existing rows for the key, insert
the chunk rows, answer 200 with the ETag header. -/
def putObject (env : Env) (s : Store) (bucket key body : Str)
    (contentTypeHdr : Option Str) : Store × Resp :=
  let contentType := contentTypeHdr.getD octetStream
  let etag := env.md5Hex body
  ({ s with objects :=
      delMatching s.objects bucket key ++
        objectRowsOf bucket key body etag env.nowIso contentType },
   { status := 200, payload := .empty, etagHeader := some etag })

def leIdx (a b : ObjRow) : Bool := Nat.ble a.chunkIndex b.chunkIndex

/-- `getObject` / `HeadObject`: read chunk 0 (404 if absent); for GET read
all chunks in ascending `chunk_index` order and build a body of exactly
`size` bytes (a short concatenation is zero-padded by `Uint8Array`, an
over-long one throws and is caught as a 500). -/
def getObject (s : Store) (bucket key : Str) (headOnly : Bool) : Resp :=
  let rows0 := s.objects.filter fun r => r.isFor bucket key && r.chunkIndex == 0
  match rows0 with
  | [] => errorResponse "NoSuchKey" "The specified key does not exist." 404
  | row :: _ =>
    if headOnly then
      { status := 200, payload := .empty, contentLength := some row.size,
        etagHeader := some row.etag }
    else
      let chunks := sortByLe leIdx (s.objects.filter fun r => r.isFor bucket key)
      if chunks = [] then
        { status := 200, payload := .bytes [], contentLength := some row.size,
          etagHeader := some row.etag }
      else
        let joined := (chunks.map (·.data)).flatten
        if joined.length ≤ row.size then
          { status := 200,
            payload := .bytes (joined ++ List.replicate (row.size - joined.length) 0),
            contentLength := some row.size, etagHeader := some row.etag }
        else
          errorResponse "InternalError" "Failed to retrieve object" 500

/-- `deleteObject`: delete all rows for the key; 204 regardless. -/
def deleteObject (s : Store) (bucket key : Str) : Store × Resp :=
  ({ s with objects := delMatching s.objects bucket key },
   { status := 204, payload := .empty })

/-- `headBucket`: always 200. -/
def headBucket : Resp := { status := 200, payload := .empty }

/-- Split a path at its first `/`, as `sourcePath.indexOf("/")` + slices. -/
def splitFirstSlash : Str → Option (Str × Str)
  | [] => none
  | c :: rest =>
    if c = slash then some ([], rest)
    else match splitFirstSlash rest with
      | none => none
      | some (a, b) => some (c :: a, b)

/-- `copyObject`: parse `x-amz-copy-source`, reject cross-bucket copies,
404 on a missing source, delete the destination rows, then copy the source
chunks *as re-read after that deletion* (the code issues the chunk SELECT
after the destination DELETE). -/
def copyObject (env : Env) (s : Store) (bucket destKey copySource : Str) :
    Store × Resp :=
  let sourcePath := if copySource.head? = some slash then copySource.tail else copySource
  match splitFirstSlash sourcePath with
  | none => (s, errorResponse "InvalidArgument" "Invalid copy source" 400)
  | some (sourceBucket, rawKey) =>
    let sourceKey := env.decodeURI rawKey
    if sourceBucket ≠ bucket then
      (s, errorResponse "InvalidArgument" "Cross-bucket copy not supported" 400)
    else
      match s.objects.filter (fun r => r.isFor sourceBucket sourceKey && r.chunkIndex == 0) with
      | [] => (s, errorResponse "NoSuchKey" "The specified source key does not exist." 404)
      | meta :: _ =>
        let objsDel := delMatching s.objects bucket destKey
        let chunks := sortByLe leIdx
          (objsDel.filter fun r => r.isFor sourceBucket sourceKey)
        let newRows := chunks.map fun c =>
          if c.chunkIndex == 0 then
            ⟨bucket, destKey, 0, meta.size, meta.etag, env.nowIso, meta.contentType,
              c.data, some (computeDepth destKey), some (computeParent destKey)⟩
          else
            ⟨bucket, destKey, c.chunkIndex, 0, [], [], [], c.data, none, none⟩
        ({ s with objects := objsDel ++ newRows },
         { status := 200, payload := .copyResult meta.etag })

/-! ## Multipart upload manager -/

/-- `createMultipartUpload`: insert a session row with a fresh upload id. -/
def createMultipartUpload (env : Env) (s : Store) (bucket key : Str)
    (contentTypeHdr : Option Str) : Store × Resp :=
  let uploadId := env.uuidHex
  ({ s with uploads := s.uploads ++
      [⟨uploadId, bucket, key, env.nowIso, contentTypeHdr.getD octetStream⟩] },
   { status := 200, payload := .initiateResult uploadId })

/-- Chunk 0 of an uploaded part: part-level metadata, first
`min(size, CHUNK_SIZE)` bytes. -/
def partChunk0 (uploadId : Str) (partNumber : Nat) (data etag : Str) : PartRow :=
  ⟨uploadId, partNumber, 0, data.length, etag,
    if data.length = 0 then [] else data.take (min CHUNK_SIZE data.length)⟩

/-- The non-zero chunks of an uploaded part. -/
def partRest (uploadId : Str) (partNumber : Nat) (data : Str) : List PartRow :=
  if CHUNK_SIZE < data.length then
    (chunksOf (data.drop CHUNK_SIZE)).enum.map fun p =>
      ⟨uploadId, partNumber, p.1 + 1, 0, [], p.2⟩
  else []

/-- The rows `uploadPart` inserts for `(upload_id, part_number)`: same chunk
discipline as objects, metadata on chunk 0 only. -/
def partRowsOf (uploadId : Str) (partNumber : Nat) (data etag : Str) :
    List PartRow :=
  partChunk0 uploadId partNumber data etag :: partRest uploadId partNumber data

/-- `uploadPart`: hash the body, delete any previous chunks of this part,
insert the new chunk rows, answer 200 with the MD5 ETag.  The session table
is never consulted. -/
def uploadPart (env : Env) (s : Store) (uploadId : Str) (partNumber : Nat)
    (body : Str) : Store × Resp :=
  let etag := env.md5Hex body
  ({ s with parts :=
      (s.parts.filter fun r => !(r.uploadId == uploadId && r.partNumber == partNumber)) ++
        partRowsOf uploadId partNumber body etag },
   { status := 200, payload := .empty, etagHeader := some etag })

def leParts (a b : PartRow) : Bool := Nat.ble a.partNumber b.partNumber

def lePartIdx (a b : PartRow) : Bool := Nat.ble a.chunkIndex b.chunkIndex

/-- Decimal digits of a number, as code units (for the synthetic `-N` ETag
suffix). -/
def natToDecimal (n : Nat) : Str := strOf (toString n)

/-- The object rows `completeMultipartUpload` writes: the part chunks in
order, densely re-indexed from 0, metadata on the first row only. -/
def completedRows (bucket key : Str) (totalSize : Nat) (etag lm ct : Str)
    (allDatas : List Str) : List ObjRow :=
  allDatas.enum.map fun pr =>
    if pr.1 = 0 then
      ⟨bucket, key, 0, totalSize, etag, lm, ct, pr.2,
        some (computeDepth key), some (computeParent key)⟩
    else ⟨bucket, key, pr.1, 0, [], [], [], pr.2, none, none⟩

/-- `completeMultipartUpload`: look up the session (404 `NoSuchUpload` if
absent), collect the chunk-0 part rows in part-number order (400
`InvalidPart` if none), delete any existing object at the key, then copy all
part chunks into the object table as one densely re-indexed sequence whose
chunk 0 carries the total size and a synthetic `"<32-hex>-<N>"` ETag;
finally drop the session and its part rows. -/
def completeMultipartUpload (env : Env) (s : Store) (bucket key uploadId : Str) :
    Store × Resp :=
  match s.uploads.filter (fun u => u.uploadId == uploadId) with
  | [] => (s, errorResponse "NoSuchUpload" "The specified upload does not exist" 404)
  | u :: _ =>
    let parts0 := sortByLe leParts
      (s.parts.filter fun r => r.uploadId == uploadId && r.chunkIndex == 0)
    if parts0 = [] then
      (s, errorResponse "InvalidPart" "No parts were uploaded" 400)
    else
      let totalSize := (parts0.map (·.size)).sum
      let objsDel := delMatching s.objects bucket key
      let etag := env.uuidHex ++ strOf "-" ++ natToDecimal parts0.length
      let allDatas := (parts0.map fun p =>
        (sortByLe lePartIdx (s.parts.filter fun r =>
          r.uploadId == uploadId && r.partNumber == p.partNumber)).map (·.data)).flatten
      let newRows := completedRows bucket key totalSize etag env.nowIso
        u.contentType allDatas
      ({ objects := objsDel ++ newRows,
         uploads := s.uploads.filter fun x => !(x.uploadId == uploadId),
         parts := s.parts.filter fun r => !(r.uploadId == uploadId) },
       { status := 200, payload := .completeResult etag })

/-- `abortMultipartUpload`: drop part rows and the session; 204, idempotent. -/
def abortMultipartUpload (s : Store) (uploadId : Str) : Store × Resp :=
  ({ s with
      uploads := s.uploads.filter fun x => !(x.uploadId == uploadId),
      parts := s.parts.filter fun r => !(r.uploadId == uploadId) },
   { status := 204, payload := .empty })

/-! ## Listing engine -/

structure ListParams where
  pfx : Str := []
  delimiter : Str := []
  maxKeys : Nat := 1000
  startAfter : Str := []
  continuationToken : Str := []
deriving DecidableEq

/-- `prefix.slice(0, -1) + String.fromCharCode(prefix.charCodeAt(last) + 1)`
(the half-open range upper bound).  `String.fromCharCode` applies ToUint16
to its argument, so the incremented code unit wraps modulo 2^16: a prefix
ending in U+FFFF gets the upper bound `prefix[:-1] + "\u0000"`. -/
def upperBoundOf (pfx : Str) : Str :=
  match pfx.getLast? with
  | none => []
  | some c => pfx.dropLast ++ [(c + 1) % 65536]

def leKey (a b : ObjRow) : Bool := strLe a.key b.key

/-- Merge items on the slash fast path: a tagged common prefix or content
row, sorted by its string value (`localeCompare` modelled as code-unit
order). -/
structure MergeItem where
  isCp : Bool
  sval : Str
  row : Option ObjRow
deriving DecidableEq

def leItem (a b : MergeItem) : Bool := strLe a.sval b.sval

/-- `indexOf` of a substring. -/
def idxOfSub : Str → Str → Option Nat
  | l, sub =>
    if sub.isPrefixOf l then some 0
    else match l with
      | [] => none
      | _ :: rest => (idxOfSub rest sub).map (· + 1)

/-- The generic-delimiter walk over the over-fetched rows: collapse keys
containing the delimiter past the prefix into common prefixes, count both
kinds of items against `max-keys`. -/
def walkRows (pfx delim : Str) (maxKeys : Nat) :
    List ObjRow → List Str → List ObjRow → List Str → Nat → Str →
      (List ObjRow × List Str × Bool × Str)
  | [], _, objs, cps, _, tok => (objs.reverse, cps.reverse, false, tok)
  | r :: rest, seen, objs, cps, count, tok =>
    if maxKeys ≤ count then (objs.reverse, cps.reverse, true, tok)
    else
      let tl := r.key.drop pfx.length
      match idxOfSub tl delim with
      | some i =>
        let cp := pfx ++ tl.take (i + 1)
        if cp ∈ seen then
          walkRows pfx delim maxKeys rest seen objs cps count tok
        else
          walkRows pfx delim maxKeys rest (cp :: seen) objs (cp :: cps)
            (count + 1) r.key
      | none =>
        walkRows pfx delim maxKeys rest seen (r :: objs) cps (count + 1) r.key

/-- `listObjectsV2`, returning the structured content of the
`ListBucketResult` XML (contents rows, common prefixes, truncation flag,
continuation token). -/
def listObjectsV2 (s : Store) (bucket : Str) (p : ListParams) : Resp :=
  let pfx := p.pfx
  let maxKeys := p.maxKeys
  let marker := if p.continuationToken ≠ [] then p.continuationToken else p.startAfter
  if p.delimiter = [slash] then
    -- fast path exploiting the parent index
    let targetDepth := computeDepth pfx + 1
    let basePool := s.objects.filter fun r =>
      r.bucket == bucket && r.chunkIndex == 0 &&
        (match r.depth with | some d => targetDepth ≤ d | none => false)
    let pool2 :=
      if pfx ≠ [] then
        basePool.filter fun r =>
          match r.parent with
          | some pa => strLe pfx pa && strLt pa (upperBoundOf pfx)
          | none => false
      else basePool
    let pool3 :=
      if marker ≠ [] then
        let mk := let cp := computeParent marker; if cp = [] then marker else cp
        pool2.filter fun r =>
          match r.parent with
          | some pa => strLt mk pa
          | none => false
      else pool2
    -- SELECT DISTINCT parent ... ORDER BY parent LIMIT maxKeys + 1
    let parentsSorted :=
      (sortByLe strLe (pool3.filterMap (·.parent)).dedup).take (maxKeys + 1)
    -- post-filter: truthy parent, starts with pfx, exactly the target depth
    -- (the code's `includes` dedup check is a no-op after SQL DISTINCT)
    let cps := parentsSorted.filter fun pa =>
      !pa.isEmpty && pfx.isPrefixOf pa && computeDepth pa == targetDepth
    -- contents query: rows whose parent equals the prefix
    let contentsPool := s.objects.filter fun r =>
      r.bucket == bucket && r.chunkIndex == 0 && r.parent == some pfx
    let contentsPool2 :=
      if marker ≠ [] then contentsPool.filter fun r => strLt marker r.key
      else contentsPool
    let objs := (sortByLe leKey contentsPool2).take (maxKeys + 1)
    -- merge, sort by value, truncate to maxKeys
    let items : List MergeItem :=
      cps.map (fun c => ⟨true, c, none⟩) ++ objs.map fun o => ⟨false, o.key, some o⟩
    let sorted := sortByLe leItem items
    let truncated := decide (maxKeys < sorted.length)
    let kept := sorted.take maxKeys
    let nextTok :=
      if truncated then (match kept.getLast? with | some it => it.sval | none => [])
      else []
    { status := 200,
      payload := .listing (kept.filterMap fun it => if it.isCp then none else it.row)
        (kept.filterMap fun it => if it.isCp then some it.sval else none)
        truncated nextTok }
  else if p.delimiter ≠ [] then
    -- generic delimiter: post-query filtering over an over-fetch
    let pool := s.objects.filter fun r => r.bucket == bucket && r.chunkIndex == 0
    let pool2 :=
      if pfx ≠ [] then
        pool.filter fun r => strLe pfx r.key && strLt r.key (upperBoundOf pfx)
      else pool
    let pool3 :=
      if marker ≠ [] then pool2.filter fun r => strLt marker r.key else pool2
    let rows := (sortByLe leKey pool3).take (maxKeys * 10 + 1)
    let (objs, cps, truncated, nextTok) := walkRows pfx p.delimiter maxKeys rows [] [] [] 0 []
    { status := 200, payload := .listing objs cps truncated nextTok }
  else
    -- no delimiter: simple listing
    let pool := s.objects.filter fun r => r.bucket == bucket && r.chunkIndex == 0
    let pool2 :=
      if pfx ≠ [] then
        pool.filter fun r => strLe pfx r.key && strLt r.key (upperBoundOf pfx)
      else pool
    let pool3 :=
      if marker ≠ [] then pool2.filter fun r => strLt marker r.key else pool2
    let rows := (sortByLe leKey pool3).take (maxKeys + 1)
    let truncated := decide (maxKeys < rows.length)
    let objs := rows.take maxKeys
    let nextTok :=
      if truncated && !objs.isEmpty then
        (match objs.getLast? with | some r => r.key | none => [])
      else []
    { status := 200, payload := .listing objs [] truncated nextTok }

structure MPListParams where
  pfx : Str := []
  keyMarker : Str := []
  uploadIdMarker : Str := []
  maxUploads : Nat := 1000
deriving DecidableEq

def leUpload (a b : UploadRow) : Bool :=
  strLt a.key b.key || (a.key == b.key && strLe a.uploadId b.uploadId)

/-- `listMultipartUploads`: sessions of the bucket ordered by
`(key, upload_id)`, prefix as a half-open range, marker pagination. -/
def listMultipartUploads (s : Store) (bucket : Str) (p : MPListParams) : Resp :=
  let pool := s.uploads.filter fun u => u.bucket == bucket
  let pool2 :=
    if p.pfx ≠ [] then
      pool.filter fun u => strLe p.pfx u.key && strLt u.key (upperBoundOf p.pfx)
    else pool
  let pool3 :=
    if p.keyMarker ≠ [] then
      if p.uploadIdMarker ≠ [] then
        pool2.filter fun u =>
          strLt p.keyMarker u.key ||
            (u.key == p.keyMarker && strLt p.uploadIdMarker u.uploadId)
      else pool2.filter fun u => strLt p.keyMarker u.key
    else pool2
  let rows := (sortByLe leUpload pool3).take (p.maxUploads + 1)
  let truncated := decide (p.maxUploads < rows.length)
  { status := 200, payload := .uploadsListing (rows.take p.maxUploads) truncated }

/-! ## Request router, authenticator, broadcaster -/

/-- One request as the engine sees it. -/
structure Request where
  method : String
  pathname : Str
  search : Str
  upgradeHeader : Option Str := none
  authHeader : Option Str := none
  contentTypeHdr : Option Str := none
  copySourceHdr : Option Str := none
  body : Str := []
  qUploads : Bool := false
  qUploadId : Option Str := none
  qPartNumber : Option Nat := none
  qList : ListParams := {}
  qMPList : MPListParams := {}
deriving DecidableEq

/-- JS truthiness of a nullable string query parameter. -/
def optTruthy : Option Str → Bool
  | some s => !s.isEmpty
  | none => false

/-- The dispatch table of `handleRequest`, first match wins. -/
def handleRequest (env : Env) (s : Store) (bucket key : Str) (req : Request) :
    Store × Resp :=
  if req.method = "HEAD" ∧ key = [] then (s, headBucket)
  else if req.method = "GET" ∧ key = [] ∧ req.qUploads then
    (s, listMultipartUploads s bucket req.qMPList)
  else if req.method = "GET" ∧ key = [] then
    (s, listObjectsV2 s bucket req.qList)
  else if (req.method = "GET" ∨ req.method = "HEAD") ∧ key ≠ [] then
    (s, getObject s bucket key (req.method = "HEAD"))
  else if key ≠ [] ∧ req.method = "POST" ∧ req.qUploads then
    createMultipartUpload env s bucket key req.contentTypeHdr
  else if key ≠ [] ∧ req.method = "PUT" ∧ optTruthy req.qUploadId ∧
      req.qPartNumber.isSome then
    uploadPart env s (req.qUploadId.getD []) (req.qPartNumber.getD 0) req.body
  else if key ≠ [] ∧ req.method = "POST" ∧ optTruthy req.qUploadId then
    completeMultipartUpload env s bucket key (req.qUploadId.getD [])
  else if key ≠ [] ∧ req.method = "DELETE" ∧ optTruthy req.qUploadId then
    abortMultipartUpload s (req.qUploadId.getD [])
  else if req.method = "PUT" ∧ key ≠ [] ∧ req.copySourceHdr.isSome then
    copyObject env s bucket key (req.copySourceHdr.getD [])
  else if req.method = "PUT" ∧ key ≠ [] then
    putObject env s bucket key req.body req.contentTypeHdr
  else if req.method = "DELETE" ∧ key ≠ [] then
    deleteObject s bucket key
  else (s, errorResponse "NotImplemented" "Operation not implemented" 501)

/-- An activity-stream subscriber; `failsSend` marks a socket whose `send`
throws. -/
structure Subscriber where
  id : Nat
  failsSend : Bool
deriving DecidableEq

structure ServerState where
  store : Store
  subs : List Subscriber
deriving DecidableEq

/-- The JSON activity event. -/
structure RequestEvent where
  method : String
  path : Str
  status : Nat
  duration : Nat
  timestamp : Str
deriving DecidableEq

/-- `broadcastRequestInfo`: send to every subscriber, then remove the ones
whose send threw.  Returns the surviving set and the delivered messages. -/
def broadcastRequestInfo (subs : List Subscriber) (ev : RequestEvent) :
    List Subscriber × List (Nat × RequestEvent) :=
  (subs.filter fun w => !w.failsSend,
   (subs.filter fun w => !w.failsSend).map fun w => (w.id, ev))

/-- Split a code-unit string on a separator character. -/
def splitOnC (c : Nat) : Str → List Str
  | [] => [[]]
  | a :: rest =>
    if a = c then [] :: splitOnC c rest
    else match splitOnC c rest with
      | [] => [[a]]
      | seg :: segs => (a :: seg) :: segs

/-- `url.pathname.split("/").filter(p => p.length > 0)`. -/
def pathSegs (p : Str) : List Str := (splitOnC slash p).filter (· ≠ [])

/-- Key extraction: everything after `/<bucket>/`, percent-decoded once
(trailing slashes preserved). -/
def extractKey (env : Env) (pathname bucket : Str) : Str :=
  let bp := slash :: bucket
  if (bp ++ [slash]).isPrefixOf pathname then
    env.decodeURI (pathname.drop (bp.length + 1))
  else []

/-- `Credential=([^\/,]+)` extraction from an `AWS4-HMAC-SHA256` header:
the non-empty `/`- and `,`-free run after the first `Credential=` that has
one (the regex engine moves on past an occurrence whose run is empty). -/
def extractCredential : Str → Option Str
  | [] => none
  | l@(_ :: rest) =>
    if (strOf "Credential=").isPrefixOf l then
      let cand := (l.drop (strOf "Credential=").length).takeWhile fun c =>
        c ≠ slash ∧ c ≠ 44
      if cand = [] then extractCredential rest else some cand
    else extractCredential rest

/-- Outcome of one `fetch` call: the new server state, the response (or an
uncaught exception, `Except.error`), and the activity events delivered. -/
structure FetchOut where
  state : ServerState
  result : Except Unit Resp
  events : List (Nat × RequestEvent)

/-- The durable object's `fetch`: WebSocket upgrades bypass everything;
otherwise parse the bucket, authenticate (Bearer or AWS4 credential slot,
with the literal dev token `"foo"` bypassing verification *and* the
broadcast), dispatch, and on the verified path broadcast the request event.
`JSON.parse(atob(middle))` has no surrounding try/catch: when it throws the
exception escapes `fetch` (`Except.error`). -/
def fetch (env : Env) (st : ServerState) (req : Request) : FetchOut :=
  if req.upgradeHeader == some (strOf "websocket") then
    { state := { st with subs := st.subs ++ [⟨env.newSubId, env.newSubFails⟩] },
      result := .ok { status := 101, payload := .empty }, events := [] }
  else
    match pathSegs req.pathname with
    | [] =>
      { state := st,
        result := .ok (errorResponse "NoSuchBucket" "No bucket specified" 404),
        events := [] }
    | bucket :: _ =>
      match req.authHeader with
      | none =>
        { state := st,
          result := .ok (errorResponse "Unauthorized" "Missing authorization" 401),
          events := [] }
      | some ah =>
        let tokenOpt : Option Str :=
          if (strOf "Bearer ").isPrefixOf ah then some (ah.drop 7)
          else if (strOf "AWS4-HMAC-SHA256").isPrefixOf ah then extractCredential ah
          else none
        match tokenOpt with
        | none =>
          { state := st,
            result := .ok (if (strOf "AWS4-HMAC-SHA256").isPrefixOf ah then
              errorResponse "Unauthorized" "Invalid AWS authorization format" 401
            else errorResponse "Unauthorized" "Unsupported authorization type" 401),
            events := [] }
        | some token =>
          if token = strOf "foo" then
            -- dev bypass: handle, but never broadcast
            let key := extractKey env req.pathname bucket
            let out := handleRequest env st.store bucket key req
            { state := { st with store := out.1 }, result := .ok out.2, events := [] }
          else
            match splitOnC 46 token with
            | [_, mid, _] =>
              match env.decodeJwtPayload mid with
              | none => { state := st, result := .error (), events := [] }
              | some claims =>
                if claims.sub = none ∨ claims.sub = some [] then
                  { state := st,
                    result := .ok (errorResponse "Unauthorized" "Invalid token claims" 401),
                    events := [] }
                else
                  match env.verifyTok token with
                  | none =>
                    { state := st,
                      result := .ok (errorResponse "Unauthorized" "Invalid token" 401),
                      events := [] }
                  | some payload =>
                    if payload.bucket ≠ bucket then
                      { state := st,
                        result := .ok (errorResponse "Forbidden"
                          "Token not valid for this bucket" 403),
                        events := [] }
                    else
                      let key := extractKey env req.pathname bucket
                      let out := handleRequest env st.store bucket key req
                      let ev : RequestEvent :=
                        ⟨req.method, req.pathname ++ req.search, out.2.status,
                          env.duration, env.nowIso⟩
                      let bc := broadcastRequestInfo st.subs ev
                      { state := { store := out.1, subs := bc.1 },
                        result := .ok out.2, events := bc.2 }
            | _ =>
              { state := st,
                result := .ok (errorResponse "Unauthorized" "Invalid token format" 401),
                events := [] }

/-! ## Auxiliary definitions for the verification statements -/

/-- A concrete environment with trivial external primitives. -/
def trivEnv : Env :=
  ⟨fun _ => strOf "d41d8cd98f00b204e9800998ecf8427e", strOf "2024-01-01T00:00:00.000Z",
    strOf "00000000000000000000000000000000", id, fun _ => none, fun _ => none, 0, 0, false⟩

/-- One part of a multipart session: its part number, bytes and stored ETag. -/
structure PartSpec where
  num : Nat
  body : Str
  tag : Str
deriving DecidableEq

/-- Comparison of part specs by part number (the `ORDER BY part_number`
key). -/
def leNum (a b : PartSpec) : Bool := Nat.ble a.num b.num

/-- Store states reachable by any sequence of store operations. -/
inductive Reachable : Store → Prop
  | empty : Reachable Store.empty
  | put (env : Env) {s : Store} (bucket key body : Str) (ct : Option Str) :
      Reachable s → Reachable (putObject env s bucket key body ct).1
  | copy (env : Env) {s : Store} (bucket destKey copySource : Str) :
      Reachable s → Reachable (copyObject env s bucket destKey copySource).1
  | del {s : Store} (bucket key : Str) :
      Reachable s → Reachable (deleteObject s bucket key).1
  | createMU (env : Env) {s : Store} (bucket key : Str) (ct : Option Str) :
      Reachable s → Reachable (createMultipartUpload env s bucket key ct).1
  | upPart (env : Env) {s : Store} (uploadId : Str) (n : Nat) (body : Str) :
      Reachable s → Reachable (uploadPart env s uploadId n body).1
  | completeMU (env : Env) {s : Store} (bucket key uploadId : Str) :
      Reachable s → Reachable (completeMultipartUpload env s bucket key uploadId).1
  | abortMU {s : Store} (uploadId : Str) :
      Reachable s → Reachable (abortMultipartUpload s uploadId).1

/-- Store states reachable by `PutObject`, `CopyObject` and `DeleteObject`
alone. -/
inductive ReachablePCD : Store → Prop
  | empty : ReachablePCD Store.empty
  | put (env : Env) {s : Store} (bucket key body : Str) (ct : Option Str) :
      ReachablePCD s → ReachablePCD (putObject env s bucket key body ct).1
  | copy (env : Env) {s : Store} (bucket destKey copySource : Str) :
      ReachablePCD s → ReachablePCD (copyObject env s bucket destKey copySource).1
  | del {s : Store} (bucket key : Str) :
      ReachablePCD s → ReachablePCD (deleteObject s bucket key).1

/-- The chunk-layout invariant exactly as the claim states it: for every
stored object, rows with `chunk_index ≥ 1` exist only if
`size > CHUNK_SIZE`, and they form the dense ascending sequence
`1, …, ⌈size/CHUNK_SIZE⌉ − 1`. -/
def chunkClaimInv (s : Store) : Prop :=
  ∀ bucket key : Str,
    ∀ r0 ∈ s.objects.filter (fun r => r.isFor bucket key), r0.chunkIndex = 0 →
      ((s.objects.filter fun r =>
          r.isFor bucket key && Nat.ble 1 r.chunkIndex).map (·.chunkIndex)) =
        if CHUNK_SIZE < r0.size then
          List.range' 1 ((r0.size + CHUNK_SIZE - 1) / CHUNK_SIZE - 1)
        else []

/-- A concrete two-part multipart session used as a witness input; part 2
was uploaded first, so its rows sit *before* part 1's in the table and only
`ORDER BY part_number` puts the bytes in part order. -/
def c2Specs : List PartSpec := [⟨2, [20], strOf "e2"⟩, ⟨1, [10], strOf "e1"⟩]

def c2Upload : UploadRow := ⟨strOf "u", strOf "b", strOf "m", [], octetStream⟩

def c2Store : Store :=
  ⟨[], [c2Upload],
    (c2Specs.map fun q => partRowsOf (strOf "u") q.num q.body q.tag).flatten⟩

/-- The store reached by completing a two-part multipart upload with
one-byte parts (the session id is `trivEnv`'s UUID). -/
def c3Store : Store :=
  (completeMultipartUpload trivEnv
    (uploadPart trivEnv
      (uploadPart trivEnv
        (createMultipartUpload trivEnv Store.empty (strOf "b") (strOf "m")
          none).1
        (strOf "00000000000000000000000000000000") 1 [10]).1
      (strOf "00000000000000000000000000000000") 2 [20]).1
    (strOf "b") (strOf "m") (strOf "00000000000000000000000000000000")).1

/-- Objects all have the exact row shape a `putObject`-style write leaves:
the inductive invariant behind the chunk-layout claim. -/
def objShape (s : Store) : Prop :=
  ∀ bucket key : Str,
    s.objects.filter (fun r => r.isFor bucket key) = [] ∨
    ∃ data etag lm ct, s.objects.filter (fun r => r.isFor bucket key) =
      objectRowsOf bucket key data etag lm ct

/-- A concrete environment whose JWT primitives accept every token for
bucket `"b"`. -/
def c8Env : Env :=
  ⟨fun _ => [], [], [], id, fun _ => some ⟨some (strOf "s")⟩,
    fun _ => some ⟨strOf "s", strOf "b"⟩, 5, 0, false⟩

/-- An `AWS4-HMAC-SHA256` Authorization header carrying the JWT `"a.b.c"`
in its `Credential=` slot (the form the repository's S3 clients send). -/
def c8Ah : Str :=
  strOf "AWS4-HMAC-SHA256 Credential=a.b.c/20231201/auto/s3/aws4_request"

def c8Req : Request :=
  { method := "GET", pathname := strOf "/b/k", search := strOf "?x=1",
    authHeader := some c8Ah }

def c8St : ServerState := ⟨Store.empty, [⟨1, false⟩, ⟨2, true⟩]⟩

/-- A store with keys sharing the literal prefix `"te%"` and one decoy. -/
def c6Store : Store :=
  (putObject trivEnv
    (putObject trivEnv
      (putObject trivEnv Store.empty (strOf "b") (strOf "te%1") [1] none).1
      (strOf "b") (strOf "te%2") [2] none).1
    (strOf "b") (strOf "teX3") [3] none).1

/-- A store whose only key has the code units `[37, 65535, 97]`
(percent sign, U+FFFF, letter a): listing it under the prefix
`[37, 65535]` exercises the ToUint16 wrap of the range upper bound. -/
def c6WrapStore : Store :=
  (putObject trivEnv Store.empty (strOf "b") [37, 65535, 97] [1] none).1

/-- A bucket whose only key lies two directories deep. -/
def c5Store : Store :=
  (putObject trivEnv Store.empty (strOf "b") (strOf "a/b/c") [1] none).1

/-- A well-formed bucket with a root file, a directory marker, and keys at
two depths, for the amended-C5 witness. -/
def c5WitStore : Store :=
  (putObject trivEnv
    (putObject trivEnv
      (putObject trivEnv
        (putObject trivEnv Store.empty (strOf "b") (strOf "root.txt")
          [1] none).1
        (strOf "b") (strOf "a/f1") [2] none).1
      (strOf "b") (strOf "a/b/c") [3] none).1
    (strOf "b") (strOf "s/") [] none).1

/-- The slash-fast-path components of `listObjectsV2` at empty prefix and
no marker (each is definitionally the corresponding internal value). -/
def rootPool (s : Store) (B : Str) : List ObjRow :=
  s.objects.filter fun r =>
    r.bucket == B && r.chunkIndex == 0 &&
      (match r.depth with | some d => decide (1 ≤ d) | none => false)

def rootParents (s : Store) (B : Str) (mk : Nat) : List Str :=
  (sortByLe strLe ((rootPool s B).filterMap (·.parent)).dedup).take (mk + 1)

def rootCps (s : Store) (B : Str) (mk : Nat) : List Str :=
  (rootParents s B mk).filter fun pa =>
    !pa.isEmpty && ([] : Str).isPrefixOf pa && computeDepth pa == 1

def rootContentsPool (s : Store) (B : Str) : List ObjRow :=
  s.objects.filter fun r =>
    r.bucket == B && r.chunkIndex == 0 && r.parent == some []

def rootObjs (s : Store) (B : Str) (mk : Nat) : List ObjRow :=
  (sortByLe leKey (rootContentsPool s B)).take (mk + 1)

def rootItems (s : Store) (B : Str) (mk : Nat) : List MergeItem :=
  (rootCps s B mk).map (fun c => ⟨true, c, none⟩) ++
    (rootObjs s B mk).map fun o => ⟨false, o.key, some o⟩

def rootSorted (s : Store) (B : Str) (mk : Nat) : List MergeItem :=
  sortByLe leItem (rootItems s B mk)

def rootKept (s : Store) (B : Str) (mk : Nat) : List MergeItem :=
  (rootSorted s B mk).take mk

/-- The first `/`-free segment of a key. -/
def firstSeg (k : Str) : Str := k.takeWhile fun c => !(c == slash)

/-- The `Contents` rows of a structured listing response. -/
def Resp.listContents (r : Resp) : List ObjRow :=
  match r.payload with
  | .listing cs _ _ _ => cs
  | _ => []

/-- The `CommonPrefixes` of a structured listing response. -/
def Resp.listCommonPrefixes (r : Resp) : List Str :=
  match r.payload with
  | .listing _ cps _ _ => cps
  | _ => []

/-- Modelled from the claim's words (for refutation): the `CommonPrefixes`
the claim expects for a delimiter-`/` listing with empty prefix — one
`s + "/"` for every distinct first segment of the bucket's keys that
contain a `/`. -/
def claimedRootPrefixes (s : Store) (bucket : Str) : List Str :=
  ((((s.objects.filter fun r => r.bucket == bucket && r.chunkIndex == 0).map
      (·.key)).filter (·.contains slash)).map fun k => firstSeg k ++ [slash]).dedup

/-! ## Basic lemmas about the embedding -/

theorem CHUNK_SIZE_pos : 0 < CHUNK_SIZE := by decide

theorem insertByLe_perm (le : α → α → Bool) (a : α) (l : List α) :
    (insertByLe le a l).Perm (a :: l) := by
  induction l with
  | nil => simp [insertByLe]
  | cons b bs ih =>
    simp only [insertByLe]
    split
    · exact List.Perm.refl _
    · exact (List.Perm.cons b ih).trans (List.Perm.swap a b bs)

theorem sortByLe_perm (le : α → α → Bool) (l : List α) :
    (sortByLe le l).Perm l := by
  induction l with
  | nil => simp [sortByLe]
  | cons a as ih =>
    exact (insertByLe_perm le a (sortByLe le as)).trans (ih.cons a)

theorem mem_sortByLe {le : α → α → Bool} {l : List α} {x : α} :
    x ∈ sortByLe le l ↔ x ∈ l :=
  (sortByLe_perm le l).mem_iff

theorem length_sortByLe (le : α → α → Bool) (l : List α) :
    (sortByLe le l).length = l.length :=
  (sortByLe_perm le l).length_eq

theorem insertByLe_map {le : β → β → Bool} {le' : α → α → Bool} (f : α → β)
    (h : ∀ a b, le (f a) (f b) = le' a b) (a : α) (l : List α) :
    insertByLe le (f a) (l.map f) = (insertByLe le' a l).map f := by
  induction l with
  | nil => rfl
  | cons x xs ih =>
    simp only [List.map_cons, insertByLe, h]
    by_cases hc : le' a x = true
    · rw [if_pos hc, if_pos hc]; rfl
    · rw [if_neg hc, if_neg hc, List.map_cons, ih]

/-- Sorting a mapped list by a comparison that only looks at the image is
mapping the sorted list. -/
theorem sortByLe_map {le : β → β → Bool} {le' : α → α → Bool} (f : α → β)
    (h : ∀ a b, le (f a) (f b) = le' a b) (l : List α) :
    sortByLe le (l.map f) = (sortByLe le' l).map f := by
  induction l with
  | nil => rfl
  | cons x xs ih => simp only [List.map_cons, sortByLe, ih, insertByLe_map f h]

theorem sortByLe_eq_self {le : α → α → Bool} {l : List α}
    (h : l.Pairwise fun x y => le x y = true) : sortByLe le l = l := by
  induction l with
  | nil => rfl
  | cons a as ih =>
    rw [List.pairwise_cons] at h
    simp only [sortByLe, ih h.2]
    cases as with
    | nil => rfl
    | cons b bs => simp [insertByLe, h.1 b (List.mem_cons_self b bs)]

theorem chunkTail_flatten {fuel : Nat} {l : Str} (h : l.length ≤ fuel) :
    (chunkTail fuel l).flatten = l := by
  induction fuel generalizing l with
  | zero =>
    have : l = [] := List.length_eq_zero.mp (Nat.le_zero.mp h)
    subst this; rfl
  | succ fuel ih =>
    cases l with
    | nil => rfl
    | cons c cs =>
      have hd : ((c :: cs).drop CHUNK_SIZE).length ≤ fuel := by
        have := CHUNK_SIZE_pos
        simp only [List.length_drop, List.length_cons] at h ⊢
        omega
      simp only [chunkTail, List.flatten_cons, ih hd, List.take_append_drop]

theorem chunksOf_flatten (l : Str) : (chunksOf l).flatten = l :=
  chunkTail_flatten (Nat.le_refl _)

theorem chunk_count_arith (n : Nat) (h : 0 < n) :
    (n - CHUNK_SIZE + CHUNK_SIZE - 1) / CHUNK_SIZE + 1 =
      (n + CHUNK_SIZE - 1) / CHUNK_SIZE := by
  have hC := CHUNK_SIZE_pos
  rcases Nat.le_total n CHUNK_SIZE with hle | hge
  · rw [show n - CHUNK_SIZE = 0 from by omega]
    have h0 : (0 + CHUNK_SIZE - 1) / CHUNK_SIZE = 0 := Nat.div_eq_of_lt (by omega)
    have h1 : (n + CHUNK_SIZE - 1) / CHUNK_SIZE = 1 :=
      Nat.div_eq_of_lt_le (by omega) (by omega)
    rw [h0, h1]
  · rw [show n - CHUNK_SIZE + CHUNK_SIZE - 1 = n - 1 from by omega,
      show n + CHUNK_SIZE - 1 = (n - 1) + CHUNK_SIZE from by omega,
      Nat.add_div_right _ hC]

theorem chunkTail_length {fuel : Nat} {l : Str} (h : l.length ≤ fuel) :
    (chunkTail fuel l).length = (l.length + CHUNK_SIZE - 1) / CHUNK_SIZE := by
  induction fuel generalizing l with
  | zero =>
    have : l = [] := List.length_eq_zero.mp (Nat.le_zero.mp h)
    subst this
    have h0 : (CHUNK_SIZE - 1) / CHUNK_SIZE = 0 :=
      Nat.div_eq_of_lt (by have := CHUNK_SIZE_pos; omega)
    simpa [chunkTail] using h0.symm
  | succ fuel ih =>
    cases l with
    | nil =>
      have h0 : (CHUNK_SIZE - 1) / CHUNK_SIZE = 0 :=
        Nat.div_eq_of_lt (by have := CHUNK_SIZE_pos; omega)
      simpa [chunkTail] using h0.symm
    | cons c cs =>
      have hd : ((c :: cs).drop CHUNK_SIZE).length ≤ fuel := by
        have := CHUNK_SIZE_pos
        simp only [List.length_drop, List.length_cons] at h ⊢
        omega
      simp only [chunkTail, List.length_cons, ih hd, List.length_drop,
        List.length_cons]
      exact chunk_count_arith (cs.length + 1) (Nat.succ_pos _)

theorem objChunk0_data (bucket key data etag lm ct : Str) :
    (objChunk0 bucket key data etag lm ct).data = data.take CHUNK_SIZE := by
  simp only [objChunk0]
  split
  · rename_i h
    rw [List.length_eq_zero.mp h]
    rfl
  · rw [List.take_eq_take]
    omega

theorem objectRowsOf_isFor {bucket key data etag lm ct : Str} :
    ∀ r ∈ objectRowsOf bucket key data etag lm ct, r.isFor bucket key = true := by
  intro r hr
  rcases List.mem_cons.mp hr with h0 | hrest
  · subst h0; simp [objChunk0, ObjRow.isFor]
  · simp only [objRest] at hrest
    split at hrest
    · rcases List.mem_map.mp hrest with ⟨p, _, hp⟩
      subst hp; simp [ObjRow.isFor]
    · simp at hrest

theorem chunksOf_length (l : Str) :
    (chunksOf l).length = (l.length + CHUNK_SIZE - 1) / CHUNK_SIZE :=
  chunkTail_length (Nat.le_refl _)

theorem objectRowsOf_map_chunkIndex (bucket key data etag lm ct : Str) :
    (objectRowsOf bucket key data etag lm ct).map (·.chunkIndex) =
      List.range (objectRowsOf bucket key data etag lm ct).length := by
  simp only [objectRowsOf, objRest, List.map_cons]
  split
  · rw [List.map_map]
    have h1 : ((fun r : ObjRow => r.chunkIndex) ∘ fun p : Nat × Str =>
        (⟨bucket, key, p.1 + 1, 0, [], [], [], p.2, none, none⟩ : ObjRow)) =
        Nat.succ ∘ Prod.fst := rfl
    rw [h1, ← List.map_map, List.enum_map_fst]
    simp only [objChunk0, List.length_cons, List.length_map, List.enum_length]
    exact (List.range_succ_eq_map _).symm
  · simp [objChunk0, List.range_succ]

theorem objectRowsOf_pairwise (bucket key data etag lm ct : Str) :
    (objectRowsOf bucket key data etag lm ct).Pairwise fun x y => leIdx x y = true := by
  have h := objectRowsOf_map_chunkIndex bucket key data etag lm ct
  have hp : ((objectRowsOf bucket key data etag lm ct).map (·.chunkIndex)).Pairwise
      (· < ·) := by rw [h]; exact List.pairwise_lt_range _
  rw [List.pairwise_map] at hp
  exact hp.imp fun hlt => by simp [leIdx, Nat.ble_eq]; omega

theorem objectRowsOf_data_flatten (bucket key data etag lm ct : Str) :
    ((objectRowsOf bucket key data etag lm ct).map (·.data)).flatten = data := by
  simp only [objectRowsOf, List.map_cons, List.flatten_cons, objChunk0_data, objRest]
  split
  · rw [List.map_map]
    have : ((fun r : ObjRow => r.data) ∘ fun p : Nat × Str =>
        (⟨bucket, key, p.1 + 1, 0, [], [], [], p.2, none, none⟩ : ObjRow)) =
        Prod.snd := rfl
    rw [this, List.enum_map_snd, chunksOf_flatten, List.take_append_drop]
  · rename_i h
    rw [List.take_of_length_le (by omega)]
    simp

theorem objectRowsOf_length (bucket key data etag lm ct : Str)
    (h : CHUNK_SIZE < data.length) :
    (objectRowsOf bucket key data etag lm ct).length =
      1 + ((data.length + CHUNK_SIZE - 1) / CHUNK_SIZE - 1) := by
  have hC := CHUNK_SIZE_pos
  simp only [objectRowsOf, objRest, if_pos h, List.length_cons, List.length_map,
    List.enum_length, chunksOf_length, List.length_drop]
  have h1 := chunk_count_arith data.length (by omega)
  have h2 : 1 ≤ (data.length + CHUNK_SIZE - 1) / CHUNK_SIZE :=
    (Nat.one_le_div_iff hC).mpr (by omega)
  omega

theorem filter_delMatching (os : List ObjRow) (bucket key : Str) :
    (delMatching os bucket key).filter (fun r => r.isFor bucket key) = [] := by
  simp only [delMatching]
  rw [List.filter_filter]
  apply List.filter_eq_nil_iff.mpr
  intro r _
  simp [Bool.and_comm]

/-- After a delete-then-insert for `(bucket, key)`, the rows the store holds
for that key are exactly the inserted ones (in insertion order). -/
theorem filter_after_write {os : List ObjRow} {bucket key : Str}
    {rows : List ObjRow} (hrows : ∀ r ∈ rows, r.isFor bucket key = true) :
    (delMatching os bucket key ++ rows).filter (fun r => r.isFor bucket key) = rows := by
  rw [List.filter_append, filter_delMatching, List.nil_append]
  exact List.filter_eq_self.mpr hrows

/-- Splitting the combined `bucket/key/chunk_index = 0` predicate. -/
theorem filter_isFor_chunk0 (os : List ObjRow) (bucket key : Str) :
    os.filter (fun r => r.isFor bucket key && r.chunkIndex == 0) =
      (os.filter (fun r => r.isFor bucket key)).filter
        (fun r => r.chunkIndex == 0) := by
  rw [List.filter_filter]
  exact List.filter_congr fun r _ => Bool.and_comm _ _

theorem filter_chunk0_objectRowsOf (bucket key data etag lm ct : Str) :
    (objectRowsOf bucket key data etag lm ct).filter
      (fun r => r.chunkIndex == 0) =
      [objChunk0 bucket key data etag lm ct] := by
  simp only [objectRowsOf, List.filter_cons]
  have h0 : ((objChunk0 bucket key data etag lm ct).chunkIndex == 0) = true := by
    simp [objChunk0]
  rw [if_pos h0]
  congr 1
  apply List.filter_eq_nil_iff.mpr
  intro r hr
  simp only [objRest] at hr
  split at hr
  · rcases List.mem_map.mp hr with ⟨p, _, hp⟩
    subst hp; simp
  · simp at hr

/-! ## C1: PutObject / GetObject / HeadObject round-trip -/

/-- The rows a completed `putObject` leaves for its key. -/
theorem putObject_filter (env : Env) (s : Store) (bucket key body : Str)
    (ctHdr : Option Str) :
    ((putObject env s bucket key body ctHdr).1.objects.filter
        (fun r => r.isFor bucket key)) =
      objectRowsOf bucket key body (env.md5Hex body) env.nowIso
        (ctHdr.getD octetStream) := by
  simp only [putObject]
  exact filter_after_write objectRowsOf_isFor

/-- `getObject` against a store whose rows for the key are exactly the rows
a write left behind. -/
theorem getObject_of_objectRows {s : Store} {bucket key data etag lm ct : Str}
    (hall : s.objects.filter (fun r => r.isFor bucket key) =
      objectRowsOf bucket key data etag lm ct) :
    getObject s bucket key false =
      { status := 200, payload := .bytes data, contentLength := some data.length,
        etagHeader := some etag } ∧
    getObject s bucket key true =
      { status := 200, payload := .empty, contentLength := some data.length,
        etagHeader := some etag } := by
  have h0 : s.objects.filter (fun r => r.isFor bucket key && r.chunkIndex == 0) =
      [objChunk0 bucket key data etag lm ct] := by
    rw [filter_isFor_chunk0, hall, filter_chunk0_objectRowsOf]
  have hsorted : sortByLe leIdx (s.objects.filter fun r => r.isFor bucket key) =
      objectRowsOf bucket key data etag lm ct := by
    rw [hall]; exact sortByLe_eq_self (objectRowsOf_pairwise _ _ _ _ _ _)
  constructor
  · simp only [getObject, h0, hsorted]
    rw [if_neg (show ¬(objectRowsOf bucket key data etag lm ct = []) by
      simp [objectRowsOf])]
    simp only [objectRowsOf_data_flatten]
    rw [if_pos (show data.length ≤ (objChunk0 bucket key data etag lm ct).size
      from le_of_eq rfl)]
    simp [objChunk0]
  · simp only [getObject, h0]
    rfl

/-- C1: for every bucket, key and byte string of any size, after
`PutObject` succeeds (status 200), `GetObject` returns status 200 with a
body byte-for-byte equal to the input and `Content-Length` equal to its
length, and `HeadObject` returns the same `Content-Length` with no body. -/
theorem C1_put_get_roundtrip (env : Env) (s : Store) (bucket key body : Str)
    (ctHdr : Option Str) :
    (putObject env s bucket key body ctHdr).2.status = 200 ∧
    getObject (putObject env s bucket key body ctHdr).1 bucket key false =
      { status := 200, payload := .bytes body, contentLength := some body.length,
        etagHeader := some (env.md5Hex body) } ∧
    getObject (putObject env s bucket key body ctHdr).1 bucket key true =
      { status := 200, payload := .empty, contentLength := some body.length,
        etagHeader := some (env.md5Hex body) } := by
  have h := getObject_of_objectRows (putObject_filter env s bucket key body ctHdr)
  exact ⟨rfl, h.1, h.2⟩

/-! ## C10: UploadPart ignores the session table -/

/-- C10: `UploadPart` always answers 200 with the body's MD5 ETag and
rewrites exactly the chunk rows of `(uploadId, partNumber)`; the response
and the part rows are independent of the `multipart_uploads` table (so no
`NoSuchUpload` is possible and orphan part rows are created for
non-existent sessions). -/
theorem C10_uploadPart_no_session_check (env : Env) (s : Store)
    (uploadId : Str) (partNumber : Nat) (body : Str) :
    (uploadPart env s uploadId partNumber body).2 =
      { status := 200, payload := .empty,
        etagHeader := some (env.md5Hex body) } ∧
    (uploadPart env s uploadId partNumber body).1.parts =
      (s.parts.filter fun r => !(r.uploadId == uploadId && r.partNumber == partNumber)) ++
        partRowsOf uploadId partNumber body (env.md5Hex body) ∧
    (uploadPart env s uploadId partNumber body).1.uploads = s.uploads ∧
    (∃ r ∈ (uploadPart env s uploadId partNumber body).1.parts,
      r.uploadId = uploadId ∧ r.partNumber = partNumber) ∧
    ∀ ups : List UploadRow,
      (uploadPart env { s with uploads := ups } uploadId partNumber body).2 =
        (uploadPart env s uploadId partNumber body).2 ∧
      (uploadPart env { s with uploads := ups } uploadId partNumber body).1.parts =
        (uploadPart env s uploadId partNumber body).1.parts := by
  refine ⟨rfl, rfl, rfl, ?_, fun ups => ⟨rfl, rfl⟩⟩
  exact ⟨⟨uploadId, partNumber, 0, body.length, env.md5Hex body,
      if body.length = 0 then [] else body.take (min CHUNK_SIZE body.length)⟩,
    List.mem_append_right _ (List.mem_cons_self _ _), rfl, rfl⟩

/-! ## C9: WebSocket upgrade bypasses authentication -/

/-- C9: any request with `Upgrade: websocket` is answered 101, its socket
is appended to the subscriber set, the store is untouched — and the outcome
is identical for every value of the `Authorization` header (no token or
bucket claim is consulted). -/
theorem C9_upgrade_before_auth (env : Env) (st : ServerState) (req : Request)
    (h : req.upgradeHeader = some (strOf "websocket")) :
    (fetch env st req).result = .ok { status := 101, payload := .empty } ∧
    (fetch env st req).state.subs = st.subs ++ [⟨env.newSubId, env.newSubFails⟩] ∧
    (fetch env st req).state.store = st.store ∧
    (fetch env st req).events = [] ∧
    ∀ auth', fetch env st { req with authHeader := auth' } = fetch env st req := by
  have hcond : (req.upgradeHeader == some (strOf "websocket")) = true := by
    rw [h]; exact beq_self_eq_true _
  refine ⟨?_, ?_, ?_, ?_, fun auth' => ?_⟩ <;>
    simp only [fetch, hcond, if_pos]

/-- Witness for C9 at a concrete upgrade request. -/
theorem C9_upgrade_before_auth_witness :
    ((⟨"GET", strOf "/b/k", [], some (strOf "websocket"), none, none, none, [],
        false, none, none, {}, {}⟩ : Request).upgradeHeader =
      some (strOf "websocket")) ∧
    (fetch ⟨fun _ => [], [], [], id, fun _ => none, fun _ => none, 0, 7, false⟩
        ⟨Store.empty, []⟩
        ⟨"GET", strOf "/b/k", [], some (strOf "websocket"), none, none, none, [],
          false, none, none, {}, {}⟩).result =
      .ok { status := 101, payload := .empty } :=
  ⟨rfl, (C9_upgrade_before_auth _ _ _ rfl).1⟩

/-! ## C7: authentication failures -/

/-- C7 (code bug): a malformed token (not three `.`-separated parts) does
produce the 401 XML envelope, but a three-part token whose middle segment
is not decodable (`JSON.parse(atob(...))` throws — here the decode
primitive returns `none`) escapes `fetch` as an uncaught exception instead
of any XML error envelope. -/
theorem C7_jwt_decode_uncaught :
    (fetch trivEnv ⟨Store.empty, []⟩
        { method := "GET", pathname := strOf "/b/k", search := [],
          authHeader := some (strOf "Bearer abc") }).result =
      .ok (errorResponse "Unauthorized" "Invalid token format" 401) ∧
    (fetch trivEnv ⟨Store.empty, []⟩
        { method := "GET", pathname := strOf "/b/k", search := [],
          authHeader := some (strOf "Bearer x.!.z") }).result =
      .error () := by
  exact ⟨rfl, rfl⟩

/-! ## C4: self-copy destroys the object -/

/-- C4 (code bug): with an existing object at `k`, `CopyObject(k → k)`
returns 200 — but because the destination rows are deleted before the
source chunks are re-read, the object is destroyed: `GetObject` afterwards
is 404 `NoSuchKey`, where the claim requires both source and destination to
exist with equal bytes. -/
theorem C4_self_copy_destroys :
    (getObject (putObject trivEnv Store.empty (strOf "b") (strOf "k") [1, 2, 3]
        none).1 (strOf "b") (strOf "k") false).status = 200 ∧
    (copyObject trivEnv
        (putObject trivEnv Store.empty (strOf "b") (strOf "k") [1, 2, 3] none).1
        (strOf "b") (strOf "k") (strOf "/b/k")).2.status = 200 ∧
    getObject (copyObject trivEnv
        (putObject trivEnv Store.empty (strOf "b") (strOf "k") [1, 2, 3] none).1
        (strOf "b") (strOf "k") (strOf "/b/k")).1 (strOf "b") (strOf "k") false =
      errorResponse "NoSuchKey" "The specified key does not exist." 404 := by
  refine ⟨rfl, rfl, ?_⟩
  rfl

/-! ## C2: multipart completion -/

theorem filter_and_split (p q : α → Bool) (l : List α) :
    l.filter (fun a => p a && q a) = (l.filter p).filter q := by
  rw [List.filter_filter]
  exact List.filter_congr fun a _ => Bool.and_comm _ _

theorem filter_flatten (p : α → Bool) (L : List (List α)) :
    L.flatten.filter p = (L.map (·.filter p)).flatten := by
  induction L with
  | nil => rfl
  | cons x xs ih => simp [List.filter_append, ih]

theorem flatten_map_singleton (f : α → β) (l : List α) :
    (l.map fun a => [f a]).flatten = l.map f := by
  induction l with
  | nil => rfl
  | cons x xs ih => simp [ih]

theorem partRowsOf_fields {uploadId : Str} {n : Nat} {data etag : Str} :
    ∀ r ∈ partRowsOf uploadId n data etag,
      r.uploadId = uploadId ∧ r.partNumber = n := by
  intro r hr
  rcases List.mem_cons.mp hr with h0 | hrest
  · subst h0; exact ⟨rfl, rfl⟩
  · simp only [partRest] at hrest
    split at hrest
    · rcases List.mem_map.mp hrest with ⟨p, _, hp⟩
      subst hp; exact ⟨rfl, rfl⟩
    · simp at hrest

theorem filter_chunk0_partRowsOf (uploadId : Str) (n : Nat) (data etag : Str) :
    (partRowsOf uploadId n data etag).filter (fun r => r.chunkIndex == 0) =
      [partChunk0 uploadId n data etag] := by
  simp only [partRowsOf, List.filter_cons]
  rw [if_pos (by simp [partChunk0])]
  congr 1
  apply List.filter_eq_nil_iff.mpr
  intro r hr
  simp only [partRest] at hr
  split at hr
  · rcases List.mem_map.mp hr with ⟨p, _, hp⟩
    subst hp; simp
  · simp at hr

theorem partRowsOf_map_chunkIndex (uploadId : Str) (n : Nat) (data etag : Str) :
    (partRowsOf uploadId n data etag).map (·.chunkIndex) =
      List.range (partRowsOf uploadId n data etag).length := by
  simp only [partRowsOf, partRest, List.map_cons]
  split
  · rw [List.map_map]
    have h1 : ((fun r : PartRow => r.chunkIndex) ∘ fun p : Nat × Str =>
        (⟨uploadId, n, p.1 + 1, 0, [], p.2⟩ : PartRow)) =
        Nat.succ ∘ Prod.fst := rfl
    rw [h1, ← List.map_map, List.enum_map_fst]
    simp only [partChunk0, List.length_cons, List.length_map, List.enum_length]
    exact (List.range_succ_eq_map _).symm
  · simp [partChunk0, List.range_succ]

theorem partRowsOf_pairwise (uploadId : Str) (n : Nat) (data etag : Str) :
    (partRowsOf uploadId n data etag).Pairwise fun x y => lePartIdx x y = true := by
  have h := partRowsOf_map_chunkIndex uploadId n data etag
  have hp : ((partRowsOf uploadId n data etag).map (·.chunkIndex)).Pairwise
      (· < ·) := by rw [h]; exact List.pairwise_lt_range _
  rw [List.pairwise_map] at hp
  exact hp.imp fun hlt => by simp only [lePartIdx, Nat.ble_eq]; omega

theorem partRowsOf_data_flatten (uploadId : Str) (n : Nat) (data etag : Str) :
    ((partRowsOf uploadId n data etag).map (·.data)).flatten = data := by
  have hd : (partChunk0 uploadId n data etag).data = data.take CHUNK_SIZE := by
    simp only [partChunk0]
    split
    · rename_i h
      rw [List.length_eq_zero.mp h]; rfl
    · rw [List.take_eq_take]; omega
  simp only [partRowsOf, List.map_cons, List.flatten_cons, hd, partRest]
  split
  · rw [List.map_map]
    have h1 : ((fun r : PartRow => r.data) ∘ fun p : Nat × Str =>
        (⟨uploadId, n, p.1 + 1, 0, [], p.2⟩ : PartRow)) = Prod.snd := rfl
    rw [h1, List.enum_map_snd, chunksOf_flatten, List.take_append_drop]
  · rename_i h
    rw [List.take_of_length_le (by omega)]
    simp

/-- Selecting one part's rows out of the whole parts layout for the upload. -/
theorem filter_partNumber_flatten {uploadId : Str} {ps : List PartSpec}
    {q : PartSpec} (hmem : q ∈ ps) (hnodup : (ps.map (·.num)).Nodup) :
    ((ps.map fun x => partRowsOf uploadId x.num x.body x.tag).flatten).filter
      (fun r => r.partNumber == q.num) =
      partRowsOf uploadId q.num q.body q.tag := by
  induction ps with
  | nil => cases hmem
  | cons x rest ih =>
    rw [List.map_cons, List.flatten_cons, List.filter_append]
    rw [List.map_cons, List.nodup_cons] at hnodup
    rcases List.mem_cons.mp hmem with hx | hrest
    · subst hx
      rw [List.filter_eq_self.mpr (fun r hr =>
        by rw [(partRowsOf_fields r hr).2]; exact beq_self_eq_true _)]
      rw [List.filter_eq_nil_iff.mpr ?_, List.append_nil]
      intro r hr
      rcases List.mem_flatten.mp hr with ⟨l, hl, hrl⟩
      rcases List.mem_map.mp hl with ⟨x', hx', hlx⟩
      subst hlx
      have hne : x'.num ≠ q.num := by
        intro hEq
        apply hnodup.1
        rw [← hEq]
        exact List.mem_map_of_mem (fun y : PartSpec => y.num) hx'
      rw [(partRowsOf_fields r hrl).2]
      simp [hne]
    · have hxne : x.num ≠ q.num := by
        intro hEq
        apply hnodup.1
        rw [hEq]
        exact List.mem_map_of_mem (fun y : PartSpec => y.num) hrest
      rw [List.filter_eq_nil_iff.mpr (fun r hr => by
        rw [(partRowsOf_fields r hr).2]; simp [hxne]), List.nil_append]
      exact ih hrest hnodup.2

/-- Deleting one part number out of a parts layout deletes exactly its
group. -/
theorem flatten_filter_groups (uploadId : Str) (n : Nat) (ps : List PartSpec) :
    (ps.map fun q => (partRowsOf uploadId q.num q.body q.tag).filter
      fun r => !(r.partNumber == n)).flatten =
    ((ps.filter fun q => !(q.num == n)).map fun q =>
      partRowsOf uploadId q.num q.body q.tag).flatten := by
  induction ps with
  | nil => rfl
  | cons x xs ih =>
    simp only [List.map_cons, List.flatten_cons, List.filter_cons]
    by_cases hx : x.num = n
    · rw [List.filter_eq_nil_iff.mpr fun r hr => by
        rw [(partRowsOf_fields r hr).2, hx]; simp]
      rw [if_neg (by simp [hx])]
      simpa using ih
    · rw [List.filter_eq_self.mpr fun r hr => by
        rw [(partRowsOf_fields r hr).2]; simp [hx]]
      rw [if_pos (by simp [hx]), List.map_cons, List.flatten_cons, ih]

/-- `uploadPart` keeps the session's rows a concatenation of per-part chunk
groups: a re-uploaded part's old group is deleted and the new group is
appended at the *end* of the table, so the groups sit in upload order, not
part-number order. -/
theorem uploadPart_layout (env : Env) (s : Store) (uploadId : Str) (n : Nat)
    (body : Str) (ps : List PartSpec)
    (hp : s.parts.filter (fun r => r.uploadId == uploadId) =
      (ps.map fun q => partRowsOf uploadId q.num q.body q.tag).flatten) :
    (uploadPart env s uploadId n body).1.parts.filter
        (fun r => r.uploadId == uploadId) =
      (((ps.filter fun q => !(q.num == n)) ++
          [(⟨n, body, env.md5Hex body⟩ : PartSpec)]).map fun q =>
        partRowsOf uploadId q.num q.body q.tag).flatten := by
  simp only [uploadPart]
  rw [List.filter_append]
  have h2 : (partRowsOf uploadId n body (env.md5Hex body)).filter
      (fun r => r.uploadId == uploadId) =
      partRowsOf uploadId n body (env.md5Hex body) :=
    List.filter_eq_self.mpr fun r hr => by
      rw [(partRowsOf_fields r hr).1]; exact beq_self_eq_true _
  have h1 : (s.parts.filter fun r =>
      !(r.uploadId == uploadId && r.partNumber == n)).filter
        (fun r => r.uploadId == uploadId) =
      (s.parts.filter fun r => r.uploadId == uploadId).filter
        fun r => !(r.partNumber == n) := by
    rw [List.filter_filter, List.filter_filter]
    apply List.filter_congr
    intro r _
    cases h : r.uploadId == uploadId <;> simp [h]
  rw [h1, h2, hp, filter_flatten, List.map_map]
  rw [show ((fun l : List PartRow => l.filter fun r => !(r.partNumber == n)) ∘
      fun q : PartSpec => partRowsOf uploadId q.num q.body q.tag) =
      fun q : PartSpec => (partRowsOf uploadId q.num q.body q.tag).filter
        fun r => !(r.partNumber == n) from rfl]
  rw [flatten_filter_groups, List.map_append, List.flatten_append]
  simp

/-- `completedRows` facts. -/
theorem completedRows_isFor {bucket key : Str} {ts : Nat} {e lm ct : Str}
    {L : List Str} :
    ∀ r ∈ completedRows bucket key ts e lm ct L, r.isFor bucket key = true := by
  intro r hr
  rcases List.mem_map.mp hr with ⟨p, _, hp⟩
  subst hp
  split <;> simp [ObjRow.isFor]

theorem completedRows_map_chunkIndex (bucket key : Str) (ts : Nat)
    (e lm ct : Str) (L : List Str) :
    (completedRows bucket key ts e lm ct L).map (·.chunkIndex) =
      List.range L.length := by
  simp only [completedRows, List.map_map]
  have h : ((fun r : ObjRow => r.chunkIndex) ∘ fun pr : Nat × Str =>
      if pr.1 = 0 then
        (⟨bucket, key, 0, ts, e, lm, ct, pr.2, some (computeDepth key),
          some (computeParent key)⟩ : ObjRow)
      else ⟨bucket, key, pr.1, 0, [], [], [], pr.2, none, none⟩) =
      Prod.fst := by
    funext pr
    by_cases h0 : pr.1 = 0 <;> simp [Function.comp, h0]
  rw [h, List.enum_map_fst]

theorem completedRows_pairwise (bucket key : Str) (ts : Nat) (e lm ct : Str)
    (L : List Str) :
    (completedRows bucket key ts e lm ct L).Pairwise
      fun x y => leIdx x y = true := by
  have h := completedRows_map_chunkIndex bucket key ts e lm ct L
  have hlen : (completedRows bucket key ts e lm ct L).length = L.length := by
    simp [completedRows]
  have hp : ((completedRows bucket key ts e lm ct L).map (·.chunkIndex)).Pairwise
      (· < ·) := by rw [h]; exact List.pairwise_lt_range _
  rw [List.pairwise_map] at hp
  exact hp.imp fun hlt => by simp only [leIdx, Nat.ble_eq]; omega

theorem completedRows_map_data (bucket key : Str) (ts : Nat) (e lm ct : Str)
    (L : List Str) :
    (completedRows bucket key ts e lm ct L).map (·.data) = L := by
  simp only [completedRows, List.map_map]
  have h : ((fun r : ObjRow => r.data) ∘ fun pr : Nat × Str =>
      if pr.1 = 0 then
        (⟨bucket, key, 0, ts, e, lm, ct, pr.2, some (computeDepth key),
          some (computeParent key)⟩ : ObjRow)
      else ⟨bucket, key, pr.1, 0, [], [], [], pr.2, none, none⟩) =
      Prod.snd := by
    funext pr
    by_cases h0 : pr.1 = 0 <;> simp [Function.comp, h0]
  rw [h, List.enum_map_snd]

/-- For a row list whose chunk indices are exactly `range`, the chunk-0
query returns the first row. -/
theorem filter_chunk0_of_range {rows : List ObjRow}
    (h : rows.map (·.chunkIndex) = List.range rows.length) :
    rows.filter (fun r => r.chunkIndex == 0) = rows.take 1 := by
  cases rows with
  | nil => rfl
  | cons r rest =>
    simp only [List.map_cons, List.length_cons, List.range_succ_eq_map] at h
    have h0 : r.chunkIndex = 0 := (List.cons.injEq _ _ _ _).mp h |>.1
    have hrest : rest.map (·.chunkIndex) =
        (List.range rest.length).map Nat.succ := (List.cons.injEq _ _ _ _).mp h |>.2
    simp only [List.filter_cons, h0]
    rw [if_pos (by simp)]
    have : rest.filter (fun r => r.chunkIndex == 0) = [] := by
      apply List.filter_eq_nil_iff.mpr
      intro x hx
      have : x.chunkIndex ∈ rest.map (·.chunkIndex) := List.mem_map_of_mem _ hx
      rw [hrest] at this
      rcases List.mem_map.mp this with ⟨m, _, hm⟩
      simp [← hm]
    rw [this]
    rfl

/-- C2: completing a multipart session whose parts table holds the chunk
rows of parts `ps` — laid out in *any* physical order (upload order, with
re-uploads appended at the end), distinct part numbers, at least one part —
materialises the object: the response is 200 and `GetObject` afterwards
returns exactly the concatenation of the parts' bytes sorted into
ascending part-number order (`sortByLe leNum ps`, the `ORDER BY
part_number`); and before the completion, given no object rows at the key,
`GetObject` is 404 `NoSuchKey`. -/
theorem C2_multipart_complete (env : Env) (s : Store)
    (bucket key uploadId : Str) (u : UploadRow) (ps : List PartSpec)
    (hu : s.uploads.filter (fun x => x.uploadId == uploadId) = [u])
    (hp : s.parts.filter (fun r => r.uploadId == uploadId) =
      (ps.map fun q => partRowsOf uploadId q.num q.body q.tag).flatten)
    (hnodup : (ps.map (·.num)).Nodup)
    (hne : ps ≠ []) :
    (completeMultipartUpload env s bucket key uploadId).2.status = 200 ∧
    getObject (completeMultipartUpload env s bucket key uploadId).1
        bucket key false =
      { status := 200,
        payload := .bytes ((sortByLe leNum ps).map (·.body)).flatten,
        contentLength := some (((sortByLe leNum ps).map (·.body)).flatten).length,
        etagHeader := some (env.uuidHex ++ strOf "-" ++ natToDecimal ps.length) } ∧
    (s.objects.filter (fun r => r.isFor bucket key) = [] →
      getObject s bucket key false =
        errorResponse "NoSuchKey" "The specified key does not exist." 404) := by
  -- the chunk-0 rows of the parts table, sorted into part-number order
  have hparts0 : sortByLe leParts
      (s.parts.filter fun r => r.uploadId == uploadId && r.chunkIndex == 0) =
      (sortByLe leNum ps).map fun q => partChunk0 uploadId q.num q.body q.tag := by
    rw [filter_and_split, hp, filter_flatten, List.map_map]
    have h1 : (ps.map fun q =>
        (partRowsOf uploadId q.num q.body q.tag).filter
          (fun r => r.chunkIndex == 0)) =
        ps.map fun q => [partChunk0 uploadId q.num q.body q.tag] :=
      List.map_congr_left fun q _ => filter_chunk0_partRowsOf _ _ _ _
    rw [show ((fun l : List PartRow => l.filter fun r => r.chunkIndex == 0) ∘
        fun q : PartSpec => partRowsOf uploadId q.num q.body q.tag) =
        (fun q : PartSpec => (partRowsOf uploadId q.num q.body q.tag).filter
          fun r => r.chunkIndex == 0) from rfl, h1, flatten_map_singleton]
    exact sortByLe_map _ (fun a b => rfl) ps
  have hpsne : sortByLe leNum ps ≠ [] := by
    intro h
    apply hne
    have hlen := congrArg List.length h
    rw [length_sortByLe] at hlen
    exact List.length_eq_zero.mp hlen
  have hne' : ((sortByLe leNum ps).map fun q =>
      partChunk0 uploadId q.num q.body q.tag) ≠ [] := by
    simp [hpsne]
  -- the per-part chunk data
  have hinner : ∀ q ∈ sortByLe leNum ps,
      (sortByLe lePartIdx (s.parts.filter fun r =>
        r.uploadId == uploadId &&
          r.partNumber == (partChunk0 uploadId q.num q.body q.tag).partNumber)).map
        (·.data) =
      (partRowsOf uploadId q.num q.body q.tag).map (·.data) := by
    intro q hq
    have hq' : q ∈ ps := mem_sortByLe.mp hq
    have : (partChunk0 uploadId q.num q.body q.tag).partNumber = q.num := rfl
    rw [this, filter_and_split, hp, filter_partNumber_flatten hq' hnodup,
      sortByLe_eq_self (partRowsOf_pairwise _ _ _ _)]
  -- unfold the operation
  simp only [completeMultipartUpload, hu]
  rw [hparts0, if_neg hne']
  simp only []
  set AD := (((sortByLe leNum ps).map fun q =>
    partChunk0 uploadId q.num q.body q.tag).map fun p =>
    (sortByLe lePartIdx (s.parts.filter fun r =>
      r.uploadId == uploadId && r.partNumber == p.partNumber)).map
      (·.data)).flatten with hADdef
  have hAD : AD = ((sortByLe leNum ps).map fun q =>
      (partRowsOf uploadId q.num q.body q.tag).map (·.data)).flatten := by
    rw [hADdef, List.map_map]
    congr 1
    exact List.map_congr_left fun q hq => hinner q hq
  have hADflat : AD.flatten = ((sortByLe leNum ps).map (·.body)).flatten := by
    rw [hAD, List.flatten_flatten, List.map_map]
    congr 1
    exact List.map_congr_left fun q _ => partRowsOf_data_flatten _ _ _ _
  have hts : (((sortByLe leNum ps).map fun q =>
      partChunk0 uploadId q.num q.body q.tag).map
      (·.size)).sum = (((sortByLe leNum ps).map (·.body)).flatten).length := by
    rw [List.length_flatten, List.map_map, List.map_map]
    rfl
  have hADne : AD ≠ [] := by
    rw [hAD]
    cases hc : sortByLe leNum ps with
    | nil => exact absurd hc hpsne
    | cons q rest => simp [partRowsOf]
  refine ⟨trivial, ?_, ?_⟩
  · -- GetObject after completion
    set ts := (((sortByLe leNum ps).map fun q =>
      partChunk0 uploadId q.num q.body q.tag).map
      (·.size)).sum with htsdef
    set te := env.uuidHex ++ strOf "-" ++
      natToDecimal ((sortByLe leNum ps).map fun q =>
        partChunk0 uploadId q.num q.body q.tag).length
      with htedef
    have hrows : (delMatching s.objects bucket key ++
        completedRows bucket key ts te env.nowIso u.contentType AD).filter
          (fun r => r.isFor bucket key) =
        completedRows bucket key ts te env.nowIso u.contentType AD :=
      filter_after_write completedRows_isFor
    have hrange : (completedRows bucket key ts te env.nowIso u.contentType AD).map
        (·.chunkIndex) =
        List.range (completedRows bucket key ts te env.nowIso u.contentType AD).length := by
      rw [completedRows_map_chunkIndex]
      congr 1
      simp [completedRows]
    have h0 : (delMatching s.objects bucket key ++
        completedRows bucket key ts te env.nowIso u.contentType AD).filter
          (fun r => r.isFor bucket key && r.chunkIndex == 0) =
        (completedRows bucket key ts te env.nowIso u.contentType AD).take 1 := by
      rw [filter_isFor_chunk0, hrows, filter_chunk0_of_range hrange]
    obtain ⟨d0, L, hADcons⟩ : ∃ d0 L, AD = d0 :: L := by
      cases hADc : AD with
      | nil => exact absurd hADc hADne
      | cons a b => exact ⟨a, b, rfl⟩
    have htake : (completedRows bucket key ts te env.nowIso u.contentType AD).take 1 =
        [⟨bucket, key, 0, ts, te, env.nowIso, u.contentType, d0,
          some (computeDepth key), some (computeParent key)⟩] := by
      rw [hADcons]; rfl
    have hsorted : sortByLe leIdx
        ((delMatching s.objects bucket key ++
          completedRows bucket key ts te env.nowIso u.contentType AD).filter
            (fun r => r.isFor bucket key)) =
        completedRows bucket key ts te env.nowIso u.contentType AD := by
      rw [hrows]
      exact sortByLe_eq_self (completedRows_pairwise _ _ _ _ _ _ _)
    simp only [getObject, h0, htake, hsorted]
    rw [if_neg (show ¬(false = true) from by simp)]
    rw [if_neg (show ¬(completedRows bucket key ts te env.nowIso u.contentType AD
      = []) by rw [hADcons]; simp [completedRows])]
    rw [completedRows_map_data, hADflat]
    rw [if_pos (show (((sortByLe leNum ps).map (·.body)).flatten).length ≤
      (⟨bucket, key, 0, ts, te, env.nowIso, u.contentType, d0,
        some (computeDepth key), some (computeParent key)⟩ : ObjRow).size
      from le_of_eq (by rw [hts]))]
    rw [hts, htedef, List.length_map, length_sortByLe]
    simp
  · -- GetObject before completion, no object at the key
    intro hempty
    have h0 : s.objects.filter (fun r => r.isFor bucket key && r.chunkIndex == 0)
        = [] := by
      rw [filter_isFor_chunk0, hempty]
      rfl
    simp only [getObject, h0]

/-! ## C3: chunk layout invariant -/

/-- C3 (counterexample): the invariant as claimed is violated in a
reachable state — completing a multipart upload of two one-byte parts
leaves an object of size 2 (≤ CHUNK_SIZE) that still has a row with
`chunk_index = 1`. -/
theorem C3_chunk_claim_counterexample :
    ¬ (∀ s : Store, Reachable s → chunkClaimInv s) := by
  intro h
  have hr : Reachable c3Store := by
    unfold c3Store
    exact Reachable.completeMU trivEnv _ _ _
      (Reachable.upPart trivEnv _ _ _
        (Reachable.upPart trivEnv _ _ _
          (Reachable.createMU trivEnv _ _ _ Reachable.empty)))
  have h2 := h c3Store hr (strOf "b") (strOf "m")
    (⟨strOf "b", strOf "m", 0, 2,
      strOf "00000000000000000000000000000000" ++ strOf "-" ++ natToDecimal 2,
      strOf "2024-01-01T00:00:00.000Z", octetStream, [10], some 0, some []⟩ : ObjRow)
    (by decide) rfl
  exact absurd h2 (by decide)

theorem isFor_eq {r : ObjRow} {b k : Str} (h : r.isFor b k = true) :
    r.bucket = b ∧ r.key = k := by
  simp only [ObjRow.isFor, Bool.and_eq_true, beq_iff_eq] at h
  exact h

theorem filter_subsumed (p q : α → Bool) (l : List α)
    (h : ∀ a, q a = true → p a = true) :
    (l.filter p).filter q = l.filter q := by
  rw [List.filter_filter]
  apply List.filter_congr
  intro a _
  cases hq : q a
  · simp
  · simp [h a hq]

/-- A delete-then-insert for `(bucket, key)` leaves every other key's rows
untouched. -/
theorem filter_other_key {os rows : List ObjRow} {bucket key b' k' : Str}
    (hne : ¬(b' = bucket ∧ k' = key))
    (hrows : ∀ r ∈ rows, r.isFor bucket key = true) :
    (delMatching os bucket key ++ rows).filter (fun r => r.isFor b' k') =
      os.filter (fun r => r.isFor b' k') := by
  have h1 : rows.filter (fun r => r.isFor b' k') = [] := by
    apply List.filter_eq_nil_iff.mpr
    intro r hr hq
    obtain ⟨hb, hk⟩ := isFor_eq hq
    obtain ⟨hb2, hk2⟩ := isFor_eq (hrows r hr)
    exact hne ⟨hb.symm.trans hb2, hk.symm.trans hk2⟩
  have h2 : (delMatching os bucket key).filter (fun r => r.isFor b' k') =
      os.filter (fun r => r.isFor b' k') := by
    apply filter_subsumed
    intro r hq
    obtain ⟨hb, hk⟩ := isFor_eq hq
    cases hIf : r.isFor bucket key
    · rfl
    · obtain ⟨hb2, hk2⟩ := isFor_eq hIf
      exact absurd ⟨hb.symm.trans hb2, hk.symm.trans hk2⟩ hne
  rw [List.filter_append, h1, List.append_nil, h2]

theorem putObject_objects (env : Env) (s : Store) (bucket key body : Str)
    (ct : Option Str) :
    (putObject env s bucket key body ct).1.objects =
      delMatching s.objects bucket key ++
        objectRowsOf bucket key body (env.md5Hex body) env.nowIso
          (ct.getD octetStream) := rfl

theorem objShape_empty : objShape Store.empty := fun _ _ => Or.inl rfl

theorem objShape_put (env : Env) {s : Store} (bucket key body : Str)
    (ct : Option Str) (hs : objShape s) :
    objShape (putObject env s bucket key body ct).1 := by
  intro b' k'
  rw [putObject_objects]
  by_cases hbk : b' = bucket ∧ k' = key
  · obtain ⟨hb, hk⟩ := hbk; subst hb; subst hk
    exact Or.inr ⟨body, _, _, _, filter_after_write objectRowsOf_isFor⟩
  · rw [filter_other_key hbk objectRowsOf_isFor]
    exact hs b' k'

theorem deleteObject_objects (s : Store) (bucket key : Str) :
    (deleteObject s bucket key).1.objects = delMatching s.objects bucket key :=
  rfl

theorem objShape_del {s : Store} (bucket key : Str) (hs : objShape s) :
    objShape (deleteObject s bucket key).1 := by
  intro b' k'
  rw [deleteObject_objects]
  by_cases hbk : b' = bucket ∧ k' = key
  · obtain ⟨hb, hk⟩ := hbk; subst hb; subst hk
    exact Or.inl (filter_delMatching _ _ _)
  · have h2 : (delMatching s.objects bucket key ++ ([] : List ObjRow)).filter
        (fun r => r.isFor b' k') = s.objects.filter (fun r => r.isFor b' k') :=
      filter_other_key hbk (by simp)
    rw [List.append_nil] at h2
    rw [h2]
    exact hs b' k'

/-- The destination rows a successful copy writes are exactly a fresh
`objectRowsOf` for the destination key. -/
theorem map_copyRows (bucket destKey srcBucket srcKey d e lm c lm' : Str)
    (sz : Nat) (et ctype : Str) (hsz : sz = d.length) (het : et = e)
    (hct : ctype = c) :
    ((objectRowsOf srcBucket srcKey d e lm c).map fun cRow =>
      if cRow.chunkIndex == 0 then
        (⟨bucket, destKey, 0, sz, et, lm', ctype, cRow.data,
          some (computeDepth destKey), some (computeParent destKey)⟩ : ObjRow)
      else
        ⟨bucket, destKey, cRow.chunkIndex, 0, [], [], [], cRow.data,
          none, none⟩) =
    objectRowsOf bucket destKey d et lm' ctype := by
  subst hsz; subst het; subst hct
  simp only [objectRowsOf, List.map_cons]
  congr 1
  simp only [objRest]
  split
  · rw [List.map_map]
    apply List.map_congr_left
    intro p _
    simp
  · rfl

theorem objShape_copy (env : Env) {s : Store} (bucket destKey copySource : Str)
    (hs : objShape s) :
    objShape (copyObject env s bucket destKey copySource).1 := by
  simp only [copyObject]
  split
  · exact hs
  · rename_i sourceBucket rawKey heqsplit
    split
    · exact hs
    · rename_i hbeq
      split
      · exact hs
      · rename_i meta rest hmetaeq
        -- the source exists: recover its shape
        have hbe : sourceBucket = bucket := by
          by_contra hc; exact hbeq hc
        subst hbe
        rcases hs sourceBucket (env.decodeURI rawKey) with hnil | ⟨d, e, lm, c, hshape⟩
        · rw [filter_isFor_chunk0, hnil] at hmetaeq
          exact absurd hmetaeq.symm (List.cons_ne_nil _ _)
        · rw [filter_isFor_chunk0, hshape, filter_chunk0_objectRowsOf] at hmetaeq
          have hmeta : meta = objChunk0 sourceBucket (env.decodeURI rawKey) d e lm c :=
            ((List.cons.injEq _ _ _ _).mp hmetaeq).1.symm
          by_cases hsd : env.decodeURI rawKey = destKey
          · -- self copy: the source rows were just deleted, nothing is written
            intro b' k'
            have hchunks : (delMatching s.objects sourceBucket destKey).filter
                (fun r => r.isFor sourceBucket (env.decodeURI rawKey)) = [] := by
              rw [hsd]; exact filter_delMatching _ _ _
            rw [hchunks, show sortByLe leIdx ([] : List ObjRow) = [] from rfl,
              List.map_nil, List.append_nil]
            by_cases hbk : b' = sourceBucket ∧ k' = destKey
            · obtain ⟨hb, hk⟩ := hbk; subst hb; subst hk
              exact Or.inl (filter_delMatching _ _ _)
            · have h2 : (delMatching s.objects sourceBucket destKey).filter
                  (fun r => r.isFor b' k') =
                  s.objects.filter (fun r => r.isFor b' k') := by
                apply filter_subsumed
                intro r hq
                obtain ⟨hb, hk⟩ := isFor_eq hq
                cases hIf : r.isFor sourceBucket destKey
                · rfl
                · obtain ⟨hb2, hk2⟩ := isFor_eq hIf
                  exact absurd ⟨hb.symm.trans hb2, hk.symm.trans hk2⟩ hbk
              rw [h2]
              exact hs b' k'
          · -- distinct destination: a faithful copy is written
            intro b' k'
            have hchunks : (delMatching s.objects sourceBucket destKey).filter
                (fun r => r.isFor sourceBucket (env.decodeURI rawKey)) =
                objectRowsOf sourceBucket (env.decodeURI rawKey) d e lm c := by
              rw [show delMatching s.objects sourceBucket destKey =
                s.objects.filter (fun r => !(r.isFor sourceBucket destKey)) from rfl]
              rw [filter_subsumed _ _ _ ?_, hshape]
              intro r hq
              obtain ⟨hb, hk⟩ := isFor_eq hq
              cases hIf : r.isFor sourceBucket destKey
              · rfl
              · obtain ⟨_, hk2⟩ := isFor_eq hIf
                exact absurd (hk.symm.trans hk2) hsd
            rw [hchunks,
              sortByLe_eq_self (objectRowsOf_pairwise _ _ _ _ _ _),
              map_copyRows sourceBucket destKey sourceBucket (env.decodeURI rawKey)
                d e lm c env.nowIso meta.size meta.etag meta.contentType
                (by rw [hmeta]; rfl) (by rw [hmeta]; rfl) (by rw [hmeta]; rfl)]
            by_cases hbk : b' = sourceBucket ∧ k' = destKey
            · obtain ⟨hb, hk⟩ := hbk; subst hb; subst hk
              exact Or.inr ⟨d, _, _, _, filter_after_write objectRowsOf_isFor⟩
            · rw [filter_other_key hbk objectRowsOf_isFor]
              exact hs b' k'

/-- The claimed chunk invariant holds of every store whose objects have the
`putObject` row shape. -/
theorem chunkClaimInv_of_objShape {s : Store} (hs : objShape s) :
    chunkClaimInv s := by
  intro bucket key r0 hmem hidx
  rcases hs bucket key with hnil | ⟨d, e, lm, c, hshape⟩
  · rw [hnil] at hmem; cases hmem
  · have hsplit : s.objects.filter
        (fun r => r.isFor bucket key && Nat.ble 1 r.chunkIndex) =
        (s.objects.filter (fun r => r.isFor bucket key)).filter
          (fun r => Nat.ble 1 r.chunkIndex) := by
      rw [List.filter_filter]
      exact List.filter_congr fun r _ => Bool.and_comm _ _
    rw [hsplit, hshape]
    rw [hshape] at hmem
    have hr0 : r0 = objChunk0 bucket key d e lm c := by
      rcases List.mem_cons.mp hmem with h | h
      · exact h
      · exfalso
        simp only [objRest] at h
        split at h
        · rcases List.mem_map.mp h with ⟨p, _, hp⟩
          rw [← hp] at hidx
          simp at hidx
        · cases h
    have hfil : (objectRowsOf bucket key d e lm c).filter
        (fun r => Nat.ble 1 r.chunkIndex) = objRest bucket key d := by
      simp only [objectRowsOf, List.filter_cons]
      rw [if_neg (by simp [objChunk0])]
      apply List.filter_eq_self.mpr
      intro r hr
      simp only [objRest] at hr
      split at hr
      · rcases List.mem_map.mp hr with ⟨p, _, hp⟩
        rw [← hp]
        simp [Nat.ble_eq]
      · cases hr
    rw [hfil, hr0]
    by_cases hbig : CHUNK_SIZE < d.length
    · rw [if_pos (show CHUNK_SIZE < (objChunk0 bucket key d e lm c).size from hbig)]
      have hidxmap := objectRowsOf_map_chunkIndex bucket key d e lm c
      simp only [objectRowsOf, List.map_cons, List.length_cons] at hidxmap
      rw [List.range_succ_eq_map] at hidxmap
      have htail : (objRest bucket key d).map (·.chunkIndex) =
          (List.range (objRest bucket key d).length).map Nat.succ :=
        ((List.cons.injEq _ _ _ _).mp hidxmap).2
      have hlen := objectRowsOf_length bucket key d e lm c hbig
      simp only [objectRowsOf, List.length_cons] at hlen
      have hlen2 : (objRest bucket key d).length =
          (d.length + CHUNK_SIZE - 1) / CHUNK_SIZE - 1 := by omega
      rw [htail, hlen2, List.range'_eq_map_range]
      apply List.map_congr_left
      intro x _
      omega
    · rw [if_neg (show ¬CHUNK_SIZE < (objChunk0 bucket key d e lm c).size from hbig)]
      simp [objRest, hbig]

/-- C3 (amended): after any sequence of `PutObject`, `CopyObject` and
`DeleteObject` operations, the claimed invariant holds: rows with
`chunk_index ≥ 1` exist only if `size > CHUNK_SIZE` and form the dense
sequence `1, …, ⌈size/CHUNK_SIZE⌉ − 1`.  (`CompleteMultipartUpload` must be
excluded: see the counterexample.) -/
theorem C3_amended_chunk_invariant :
    ∀ s : Store, ReachablePCD s → chunkClaimInv s := by
  intro s hr
  apply chunkClaimInv_of_objShape
  induction hr with
  | empty => exact objShape_empty
  | put env bucket key body ct _ ih => exact objShape_put env bucket key body ct ih
  | copy env bucket destKey cs _ ih => exact objShape_copy env bucket destKey cs ih
  | del bucket key _ ih => exact objShape_del bucket key ih

/-- Witness for the amended C3 at a concrete one-byte `putObject` state. -/
theorem C3_amended_chunk_invariant_witness :
    ReachablePCD (putObject trivEnv Store.empty (strOf "b") (strOf "k")
      [1] none).1 ∧
    chunkClaimInv (putObject trivEnv Store.empty (strOf "b") (strOf "k")
      [1] none).1 :=
  ⟨ReachablePCD.put trivEnv _ _ _ _ ReachablePCD.empty,
   C3_amended_chunk_invariant _
     (ReachablePCD.put trivEnv _ _ _ _ ReachablePCD.empty)⟩

/-! ## C6: prefix range safety -/

theorem strLt_nil_right (l : Str) : strLt l [] = false := by
  cases l <;> rfl

theorem strLt_append_self (pfx t : Str) : strLt (pfx ++ t) pfx = false := by
  induction pfx with
  | nil => exact strLt_nil_right t
  | cons a as ih => simp [strLt, Nat.lt_irrefl, ih]

theorem strLe_append (pfx t : Str) : strLe pfx (pfx ++ t) = true := by
  simp [strLe, strLt_append_self]

theorem strLt_upper (x : Str) (c : Nat) (t : Str) :
    strLt (x ++ c :: t) (x ++ [c + 1]) = true := by
  induction x with
  | nil => simp [strLt]
  | cons a as ih => simp [strLt, Nat.lt_irrefl, ih]

/-- A key inside the half-open range `[init ++ [c], init ++ [c+1])`
literally starts with `init ++ [c]`. -/
theorem prefix_of_range {init : Str} {c : Nat} {k : Str}
    (hle : strLe (init ++ [c]) k = true)
    (hlt : strLt k (init ++ [c + 1]) = true) :
    (init ++ [c]) <+: k := by
  induction init generalizing k with
  | nil =>
    cases k with
    | nil => simp [strLe, strLt] at hle
    | cons b bs =>
      simp only [List.nil_append] at *
      rcases Nat.lt_trichotomy b c with h | h | h
      · exfalso
        simp [strLe, strLt, h] at hle
      · subst h
        exact ⟨bs, rfl⟩
      · exfalso
        have h1 : ¬ b < c + 1 := by omega
        have h2 : strLt (b :: bs) [c + 1] = false := by
          simp only [strLt]
          rw [if_neg h1]
          split
          · rfl
          · exact strLt_nil_right bs
        rw [h2] at hlt
        exact Bool.false_ne_true hlt
  | cons a as ih =>
    cases k with
    | nil => simp [strLe, strLt] at hle
    | cons b bs =>
      simp only [List.cons_append] at hle hlt ⊢
      rcases Nat.lt_trichotomy b a with h | h | h
      · exfalso
        simp [strLe, strLt, h] at hle
      · subst h
        have hle' : strLe (as ++ [c]) bs = true := by
          simpa [strLe, strLt, Nat.lt_irrefl] using hle
        have hlt' : strLt bs (as ++ [c + 1]) = true := by
          simpa [strLt, Nat.lt_irrefl] using hlt
        exact List.cons_prefix_cons.mpr ⟨rfl, ih hle' hlt'⟩
      · exfalso
        simp [strLt, h, Nat.lt_asymm h] at hlt

/-- The half-open range test equals the literal starts-with test for a
non-empty prefix whose last code unit does not overflow the ToUint16 wrap:
`%` and `_` have no wildcard meaning. -/
theorem range_iff_startsWith {pfx k : Str} (hne : pfx ≠ [])
    (hlast : pfx.getLast?.getD 0 + 1 < 65536) :
    (strLe pfx k && strLt k (upperBoundOf pfx)) = true ↔ pfx <+: k := by
  obtain ⟨init, c, hdecomp⟩ : ∃ init c, pfx = init ++ [c] :=
    ⟨pfx.dropLast, pfx.getLast hne, (List.dropLast_concat_getLast hne).symm⟩
  subst hdecomp
  rw [List.getLast?_concat, Option.getD_some] at hlast
  have hub : upperBoundOf (init ++ [c]) = init ++ [c + 1] := by
    simp [upperBoundOf, List.getLast?_concat, List.dropLast_concat,
      Nat.mod_eq_of_lt hlast]
  rw [hub, Bool.and_eq_true]
  constructor
  · intro h
    exact prefix_of_range h.1 h.2
  · rintro ⟨t, rfl⟩
    refine ⟨strLe_append _ _, ?_⟩
    rw [show (init ++ [c]) ++ t = init ++ c :: t by simp]
    exact strLt_upper _ _ _

/-- C6 (counterexample to the claim as stated): the prefix
`[37, 65535]` (a percent sign followed by U+FFFF) is non-empty and contains
`%`; the stored key `[37, 65535, 97]` literally starts with it and the
matching keys number far below max-keys, yet `ListObjectsV2` returns no
`Contents` at all — `String.fromCharCode(0xFFFF + 1)` wraps to `"\u0000"`,
so the half-open key range `[[37, 65535], [37, 0])` is empty. -/
theorem C6_wrap_counterexample :
    (37 : Nat) ∈ ([37, 65535] : Str) ∧
    ([37, 65535] : Str) <+: [37, 65535, 97] ∧
    (c6WrapStore.objects.filter fun r =>
      r.bucket == strOf "b" && r.chunkIndex == 0 &&
        ([37, 65535] : Str).isPrefixOf r.key) ≠ [] ∧
    (listObjectsV2 c6WrapStore (strOf "b")
      { pfx := [37, 65535], maxKeys := 1000 }).listContents = [] := by
  refine ⟨by decide, ⟨[97], rfl⟩, by decide, by decide⟩

/-- C6 (amended): with a non-empty prefix containing `%` or `_`, no
delimiter and no marker, `ListObjectsV2` returns only keys that literally
start with the prefix; and — provided the prefix's last code unit is below
U+FFFF, so the ToUint16 upper bound does not wrap — whenever the matching
keys number at most `max-keys`, every matching key is returned.  The prefix
is applied as a half-open key range, never as a SQL `LIKE` pattern. -/
theorem C6_amended_prefix_range (s : Store) (B pfx : Str) (mk : Nat)
    (hne : pfx ≠ []) (hspecial : 37 ∈ pfx ∨ 95 ∈ pfx)
    (hlast : pfx.getLast?.getD 0 + 1 < 65536) :
    (∀ r ∈ (listObjectsV2 s B { pfx := pfx, maxKeys := mk }).listContents,
      pfx <+: r.key) ∧
    (((s.objects.filter fun r => r.bucket == B && r.chunkIndex == 0).filter
        (fun r => pfx.isPrefixOf r.key)).length ≤ mk →
      ∀ r ∈ s.objects, r.bucket = B → r.chunkIndex = 0 → pfx <+: r.key →
        r.key ∈ ((listObjectsV2 s B
          { pfx := pfx, maxKeys := mk }).listContents.map (·.key))) := by
  have hd1 : ¬((({} : ListParams).delimiter) = [slash]) := by decide
  have hpool : (s.objects.filter fun r =>
      r.bucket == B && r.chunkIndex == 0).filter
        (fun r => strLe pfx r.key && strLt r.key (upperBoundOf pfx)) =
      (s.objects.filter fun r => r.bucket == B && r.chunkIndex == 0).filter
        (fun r => pfx.isPrefixOf r.key) := by
    apply List.filter_congr
    intro r _
    rw [Bool.eq_iff_iff]
    rw [range_iff_startsWith hne hlast, List.isPrefixOf_iff_prefix]
  have hresp : (listObjectsV2 s B { pfx := pfx, maxKeys := mk }).listContents =
      ((sortByLe leKey ((s.objects.filter fun r =>
        r.bucket == B && r.chunkIndex == 0).filter
          (fun r => pfx.isPrefixOf r.key))).take (mk + 1)).take mk := by
    simp only [listObjectsV2]
    rw [if_neg (by decide : ¬(([] : Str) = [slash])), if_neg (by simp),
      if_pos hne, if_neg (by simp), hpool]
    rfl
  constructor
  · intro r hr
    rw [hresp] at hr
    have hr2 : r ∈ (s.objects.filter fun r =>
        r.bucket == B && r.chunkIndex == 0).filter
          (fun r => pfx.isPrefixOf r.key) :=
      mem_sortByLe.mp (List.mem_of_mem_take (List.mem_of_mem_take hr))
    have := (List.mem_filter.mp hr2).2
    exact List.isPrefixOf_iff_prefix.mp this
  · intro hcount r hr hb hc hpfx
    have hmem : r ∈ (s.objects.filter fun r =>
        r.bucket == B && r.chunkIndex == 0).filter
          (fun r => pfx.isPrefixOf r.key) := by
      apply List.mem_filter.mpr
      refine ⟨List.mem_filter.mpr ⟨hr, ?_⟩, ?_⟩
      · simp [hb, hc]
      · exact List.isPrefixOf_iff_prefix.mpr hpfx
    rw [hresp]
    have hlen : (sortByLe leKey ((s.objects.filter fun r =>
        r.bucket == B && r.chunkIndex == 0).filter
          (fun r => pfx.isPrefixOf r.key))).length ≤ mk := by
      rw [length_sortByLe]
      exact hcount
    rw [List.take_of_length_le (Nat.le_trans hlen (Nat.le_succ mk)),
      List.take_of_length_le hlen]
    exact List.mem_map_of_mem _ (mem_sortByLe.mpr hmem)

/-- Witness for the amended C6 at a concrete store and the prefix
`"te%"`. -/
theorem C6_amended_prefix_range_witness :
    (strOf "te%" ≠ [] ∧ (37 ∈ strOf "te%" ∨ 95 ∈ strOf "te%") ∧
     (strOf "te%").getLast?.getD 0 + 1 < 65536) ∧
    (∀ r ∈ (listObjectsV2 c6Store (strOf "b")
        { pfx := strOf "te%", maxKeys := 1000 }).listContents,
      strOf "te%" <+: r.key) :=
  ⟨⟨by decide, by decide, by decide⟩,
   (C6_amended_prefix_range c6Store (strOf "b") (strOf "te%") 1000
     (by decide) (by decide) (by decide)).1⟩

/-! ## C5: slash-delimiter listing at the bucket root -/

/-- The slash fast path at empty prefix, no marker, unfolded into its
components. -/
theorem listObjectsV2_root_eq (s : Store) (B : Str) (mk : Nat) :
    listObjectsV2 s B { delimiter := [slash], maxKeys := mk } =
      { status := 200,
        payload := .listing
          ((rootKept s B mk).filterMap fun it => if it.isCp then none else it.row)
          ((rootKept s B mk).filterMap fun it => if it.isCp then some it.sval else none)
          (decide (mk < (rootSorted s B mk).length))
          (if decide (mk < (rootSorted s B mk).length) = true then
            (match (rootKept s B mk).getLast? with
              | some it => it.sval
              | none => [])
          else []) } := rfl

theorem parentAux_ne_nil {l : Str} (h : parentAux l ≠ []) : slash ∈ l := by
  induction l with
  | nil => exact absurd rfl h
  | cons c rest ih =>
    simp only [parentAux] at h
    split at h
    · rename_i hc
      simp [hc]
    · exact List.mem_cons_of_mem _ (ih h)

/-- A key with a non-empty parent contains a slash, so has depth ≥ 1. -/
theorem computeParent_ne_nil {k : Str} (h : computeParent k ≠ []) :
    1 ≤ computeDepth k := by
  have h1 : slash ∈ (if k.getLast? = some slash then k.dropLast else k).reverse :=
    parentAux_ne_nil h
  rw [List.mem_reverse] at h1
  have h2 : slash ∈ k := by
    split at h1
    · exact (List.dropLast_sublist k).mem h1
    · exact h1
  have h3 := List.count_pos_iff.mpr h2
  simpa [computeDepth] using h3

theorem nodup_subset_length [DecidableEq α] {l L : List α} (hn : l.Nodup)
    (hsub : ∀ x ∈ l, x ∈ L) : l.length ≤ L.length :=
  calc l.length = l.toFinset.card := (List.toFinset_card_of_nodup hn).symm
    _ ≤ L.toFinset.card := Finset.card_le_card fun x hx =>
        List.mem_toFinset.mpr (hsub x (List.mem_toFinset.mp hx))
    _ ≤ L.length := L.toFinset_card_le

/-- C5 (amended): with `delimiter = "/"`, empty prefix, no marker, and a
well-formed store whose bucket holds at most `max-keys` objects: `Contents`
is exactly the keys whose `parent()` is empty (root files and
single-segment directory markers), and `CommonPrefixes` is exactly the
depth-1 strings that are the immediate parent of at least one key —
directories whose objects all lie in deeper sub-directories are omitted. -/
theorem C5_amended_root_listing (s : Store) (B : Str) (mk : Nat)
    (hwf : ∀ r ∈ s.objects, r.chunkIndex = 0 →
      r.depth = some (computeDepth r.key) ∧
      r.parent = some (computeParent r.key))
    (hcount : (s.objects.filter fun r =>
      r.bucket == B && r.chunkIndex == 0).length ≤ mk) :
    (∀ k : Str, k ∈ ((listObjectsV2 s B
        { delimiter := [slash], maxKeys := mk }).listContents.map (·.key)) ↔
      ∃ r ∈ s.objects, r.bucket = B ∧ r.chunkIndex = 0 ∧ r.key = k ∧
        computeParent k = []) ∧
    (∀ p : Str, p ∈ (listObjectsV2 s B
        { delimiter := [slash], maxKeys := mk }).listCommonPrefixes ↔
      computeDepth p = 1 ∧ ∃ r ∈ s.objects, r.bucket = B ∧ r.chunkIndex = 0 ∧
        computeParent r.key = p) := by
  have hBRmem : ∀ r : ObjRow, r ∈ (s.objects.filter fun r =>
      r.bucket == B && r.chunkIndex == 0) ↔
      r ∈ s.objects ∧ r.bucket = B ∧ r.chunkIndex = 0 := by
    intro r
    simp [List.mem_filter, and_assoc]
  have hrootPool : rootPool s B = (s.objects.filter fun r =>
      r.bucket == B && r.chunkIndex == 0).filter
        (fun r => (match r.depth with
          | some d => decide (1 ≤ d)
          | none => false)) := filter_and_split _ _ _
  have hrootContents : rootContentsPool s B = (s.objects.filter fun r =>
      r.bucket == B && r.chunkIndex == 0).filter
        (fun r => r.parent == some []) := filter_and_split _ _ _
  have hparentsFull : rootParents s B mk =
      sortByLe strLe ((rootPool s B).filterMap (·.parent)).dedup := by
    apply List.take_of_length_le
    rw [length_sortByLe]
    calc ((rootPool s B).filterMap (·.parent)).dedup.length
        ≤ ((rootPool s B).filterMap (·.parent)).length :=
          (List.dedup_sublist _).length_le
      _ ≤ (rootPool s B).length := List.length_filterMap_le _ _
      _ ≤ (s.objects.filter fun r =>
            r.bucket == B && r.chunkIndex == 0).length := by
          rw [hrootPool]; exact List.length_filter_le _ _
      _ ≤ mk := hcount
      _ ≤ mk + 1 := Nat.le_succ mk
  have hobjsFull : rootObjs s B mk = sortByLe leKey (rootContentsPool s B) := by
    apply List.take_of_length_le
    rw [length_sortByLe]
    calc (rootContentsPool s B).length
        ≤ (s.objects.filter fun r =>
            r.bucket == B && r.chunkIndex == 0).length := by
          rw [hrootContents]; exact List.length_filter_le _ _
      _ ≤ mk := hcount
      _ ≤ mk + 1 := Nat.le_succ mk
  have hcps_mem : ∀ p : Str, p ∈ rootCps s B mk ↔
      (p ∈ (rootPool s B).filterMap (·.parent) ∧ p ≠ [] ∧
        computeDepth p = 1) := by
    intro p
    simp only [rootCps, hparentsFull, List.mem_filter, mem_sortByLe,
      List.mem_dedup, Bool.and_eq_true, Bool.not_eq_true', beq_iff_eq]
    constructor
    · rintro ⟨hm, ⟨hne, _⟩, hd⟩
      exact ⟨hm, by simpa [List.isEmpty_iff] using hne, hd⟩
    · rintro ⟨hm, hne, hd⟩
      refine ⟨hm, ⟨by simpa [List.isEmpty_iff] using hne, ?_⟩, hd⟩
      exact List.isPrefixOf_iff_prefix.mpr List.nil_prefix
  have hcps_nodup : (rootCps s B mk).Nodup := by
    apply List.Nodup.filter
    rw [hparentsFull]
    exact (sortByLe_perm _ _).nodup_iff.mpr (List.nodup_dedup _)
  have hcps_le : (rootCps s B mk).length ≤
      ((s.objects.filter fun r => r.bucket == B && r.chunkIndex == 0).filter
        (fun r => !(r.parent == some []))).length := by
    calc (rootCps s B mk).length
        ≤ (((s.objects.filter fun r =>
            r.bucket == B && r.chunkIndex == 0).filter
              (fun r => !(r.parent == some []))).filterMap (·.parent)).length := by
          apply nodup_subset_length hcps_nodup
          intro p hp
          obtain ⟨hpfm, hpne, _⟩ := (hcps_mem p).mp hp
          obtain ⟨r, hrPool, hrp⟩ := List.mem_filterMap.mp hpfm
          have hrBR : r ∈ s.objects.filter fun r =>
              r.bucket == B && r.chunkIndex == 0 := by
            rw [hrootPool] at hrPool
            exact (List.mem_filter.mp hrPool).1
          refine List.mem_filterMap.mpr ⟨r, ?_, hrp⟩
          refine List.mem_filter.mpr ⟨hrBR, ?_⟩
          simp only [hrp]
          simp [hpne]
      _ ≤ ((s.objects.filter fun r =>
            r.bucket == B && r.chunkIndex == 0).filter
              (fun r => !(r.parent == some []))).length :=
          List.length_filterMap_le _ _
  have hitems : (rootItems s B mk).length ≤ mk := by
    have hsum : (s.objects.filter fun r =>
        r.bucket == B && r.chunkIndex == 0).length =
        ((s.objects.filter fun r =>
          r.bucket == B && r.chunkIndex == 0).filter
            (fun r => r.parent == some [])).length +
        ((s.objects.filter fun r =>
          r.bucket == B && r.chunkIndex == 0).filter
            (fun r => !(r.parent == some []))).length :=
      List.length_eq_length_filter_add _
    simp only [rootItems, List.length_append, List.length_map]
    have hobjslen : (rootObjs s B mk).length = (rootContentsPool s B).length := by
      rw [hobjsFull, length_sortByLe]
    rw [hobjslen, hrootContents]
    omega
  have hsortedlen : (rootSorted s B mk).length ≤ mk := by
    rw [rootSorted, length_sortByLe]
    exact hitems
  have hkeptFull : rootKept s B mk = rootSorted s B mk :=
    List.take_of_length_le hsortedlen
  have hContExt : ∀ x : ObjRow,
      (x ∈ (rootKept s B mk).filterMap
        (fun it => if it.isCp then none else it.row)) ↔
      x ∈ rootContentsPool s B := by
    intro x
    rw [hkeptFull]
    constructor
    · intro hx
      obtain ⟨it, hit, hfx⟩ := List.mem_filterMap.mp hx
      have hit2 : it ∈ rootItems s B mk := mem_sortByLe.mp hit
      rcases List.mem_append.mp hit2 with hcp | hob
      · obtain ⟨c, _, hc⟩ := List.mem_map.mp hcp
        rw [← hc] at hfx
        simp at hfx
      · obtain ⟨o, ho, hoeq⟩ := List.mem_map.mp hob
        rw [← hoeq] at hfx
        simp at hfx
        rw [hobjsFull] at ho
        have hmem := mem_sortByLe.mp ho
        exact hfx ▸ hmem
    · intro hx
      refine List.mem_filterMap.mpr ⟨⟨false, x.key, some x⟩, ?_, rfl⟩
      apply mem_sortByLe.mpr
      refine List.mem_append.mpr (Or.inr ?_)
      refine List.mem_map.mpr ⟨x, ?_, rfl⟩
      rw [hobjsFull]
      exact mem_sortByLe.mpr hx
  have hCpExt : ∀ p : Str,
      (p ∈ (rootKept s B mk).filterMap
        (fun it => if it.isCp then some it.sval else none)) ↔
      p ∈ rootCps s B mk := by
    intro p
    rw [hkeptFull]
    constructor
    · intro hx
      obtain ⟨it, hit, hfx⟩ := List.mem_filterMap.mp hx
      have hit2 : it ∈ rootItems s B mk := mem_sortByLe.mp hit
      rcases List.mem_append.mp hit2 with hcp | hob
      · obtain ⟨c, hc, hceq⟩ := List.mem_map.mp hcp
        rw [← hceq] at hfx
        simp at hfx
        exact hfx ▸ hc
      · obtain ⟨o, _, hoeq⟩ := List.mem_map.mp hob
        rw [← hoeq] at hfx
        simp at hfx
    · intro hx
      refine List.mem_filterMap.mpr ⟨⟨true, p, none⟩, ?_, rfl⟩
      apply mem_sortByLe.mpr
      refine List.mem_append.mpr (Or.inl ?_)
      exact List.mem_map.mpr ⟨p, hx, rfl⟩
  constructor
  · intro k
    rw [listObjectsV2_root_eq]
    simp only [Resp.listContents, List.mem_map]
    constructor
    · rintro ⟨x, hx, rfl⟩
      have hx2 := (hContExt x).mp hx
      rw [hrootContents] at hx2
      have h1 := List.mem_filter.mp hx2
      have h2 := (hBRmem x).mp h1.1
      refine ⟨x, h2.1, h2.2.1, h2.2.2, rfl, ?_⟩
      have hw := (hwf x h2.1 h2.2.2).2
      have h3 : x.parent = some [] := by simpa using h1.2
      rw [hw] at h3
      exact Option.some.inj h3
    · rintro ⟨r, hr, hb, hc, hk, hpar⟩
      refine ⟨r, (hContExt r).mpr ?_, hk⟩
      rw [hrootContents]
      refine List.mem_filter.mpr ⟨(hBRmem r).mpr ⟨hr, hb, hc⟩, ?_⟩
      have hw := (hwf r hr hc).2
      rw [hk] at hw
      rw [hw, hpar]
      rfl
  · intro p
    rw [listObjectsV2_root_eq]
    simp only [Resp.listCommonPrefixes]
    rw [hCpExt p, hcps_mem p]
    constructor
    · rintro ⟨hpfm, _, hpd⟩
      obtain ⟨r, hrPool, hrp⟩ := List.mem_filterMap.mp hpfm
      have hrBR : r ∈ s.objects.filter fun r =>
          r.bucket == B && r.chunkIndex == 0 := by
        rw [hrootPool] at hrPool
        exact (List.mem_filter.mp hrPool).1
      have h2 := (hBRmem r).mp hrBR
      have hw := (hwf r h2.1 h2.2.2).2
      refine ⟨hpd, r, h2.1, h2.2.1, h2.2.2, ?_⟩
      rw [hw] at hrp
      exact Option.some.inj hrp
    · rintro ⟨hpd, r, hr, hb, hc, hpar⟩
      have hw := hwf r hr hc
      have hpne : p ≠ [] := by
        intro h
        rw [h] at hpd
        simp [computeDepth] at hpd
      refine ⟨?_, hpne, hpd⟩
      refine List.mem_filterMap.mpr ⟨r, ?_, by rw [hw.2, hpar]⟩
      rw [hrootPool]
      refine List.mem_filter.mpr ⟨(hBRmem r).mpr ⟨hr, hb, hc⟩, ?_⟩
      rw [hw.1]
      have h1 : computeParent r.key ≠ [] := by rw [hpar]; exact hpne
      simpa using computeParent_ne_nil h1

/-- C5 (counterexample): with a single key `"a/b/c"` the claim expects
`CommonPrefixes = ["a/"]` (the key's first segment), but the fast path only
materialises immediate parents, so the listing returns no common prefixes
at all (and no contents). -/
theorem C5_deep_dir_counterexample :
    claimedRootPrefixes c5Store (strOf "b") = [strOf "a/"] ∧
    (listObjectsV2 c5Store (strOf "b")
      { delimiter := [slash] }).listCommonPrefixes = [] ∧
    (listObjectsV2 c5Store (strOf "b")
      { delimiter := [slash] }).listContents = [] := by
  refine ⟨by decide, by decide, by decide⟩

/-- Witness for the amended C5 at a concrete well-formed bucket holding
`root.txt`, `a/f1`, `a/b/c` and the marker `s/`. -/
theorem C5_amended_root_listing_witness :
    ((∀ r ∈ c5WitStore.objects, r.chunkIndex = 0 →
        r.depth = some (computeDepth r.key) ∧
        r.parent = some (computeParent r.key)) ∧
      (c5WitStore.objects.filter fun r =>
        r.bucket == strOf "b" && r.chunkIndex == 0).length ≤ 1000) ∧
    ((strOf "root.txt") ∈ ((listObjectsV2 c5WitStore (strOf "b")
      { delimiter := [slash], maxKeys := 1000 }).listContents.map (·.key)) ↔
      ∃ r ∈ c5WitStore.objects, r.bucket = strOf "b" ∧ r.chunkIndex = 0 ∧
        r.key = strOf "root.txt" ∧ computeParent (strOf "root.txt") = []) :=
  ⟨⟨by decide, by decide⟩,
   (C5_amended_root_listing c5WitStore (strOf "b") 1000 (by decide)
     (by decide)).1 (strOf "root.txt")⟩

/-! ## C8: activity broadcast -/

/-- C8 (counterexample): a request authenticated via the dev token `"foo"`
is handled (the 404 response is produced) with a live subscriber present,
yet no event is broadcast — the dev-token path returns before the
broadcast step, refuting "regardless of its outcome … sent to every
currently subscribed WebSocket". -/
theorem C8_foo_no_broadcast_counterexample :
    (⟨Store.empty, [⟨1, false⟩]⟩ : ServerState).subs ≠ [] ∧
    (fetch trivEnv ⟨Store.empty, [⟨1, false⟩]⟩
        { method := "GET", pathname := strOf "/b/k", search := [],
          authHeader := some (strOf "Bearer foo") }).result =
      .ok (errorResponse "NoSuchKey" "The specified key does not exist." 404) ∧
    (fetch trivEnv ⟨Store.empty, [⟨1, false⟩]⟩
        { method := "GET", pathname := strOf "/b/k", search := [],
          authHeader := some (strOf "Bearer foo") }).events = [] := by
  refine ⟨by decide, rfl, rfl⟩

/-- C8 (amended): for every request whose Authorization header yields a
token other than `"foo"` — through the `"Bearer "` form *or* the
`AWS4-HMAC-SHA256` `Credential=` slot — and that passes JWT verification
for the bucket, after the response is produced the event
`{method, path+search, status, duration, timestamp}` is delivered to every
subscriber whose send does not throw, subscribers whose send throws are
removed, and the response is the handler's response unaffected by the
broadcast. -/
theorem C8_amended_broadcast (env : Env) (st : ServerState) (req : Request)
    (bucket : Str) (rest : List Str) (ah tok p1 p2 p3 sb : Str)
    (cl : JwtClaims) (pl : TokenPayload)
    (hup : (req.upgradeHeader == some (strOf "websocket")) = false)
    (hsegs : pathSegs req.pathname = bucket :: rest)
    (hah : req.authHeader = some ah)
    (htok : (if (strOf "Bearer ").isPrefixOf ah then some (ah.drop 7)
      else if (strOf "AWS4-HMAC-SHA256").isPrefixOf ah then
        extractCredential ah
      else none) = some tok)
    (hfoo : tok ≠ strOf "foo")
    (hsplit : splitOnC 46 tok = [p1, p2, p3])
    (hdec : env.decodeJwtPayload p2 = some cl)
    (hsub : cl.sub = some sb) (hsbne : sb ≠ [])
    (hver : env.verifyTok tok = some pl)
    (hbk : pl.bucket = bucket) :
    (fetch env st req).result =
      .ok (handleRequest env st.store bucket
        (extractKey env req.pathname bucket) req).2 ∧
    (fetch env st req).events =
      (st.subs.filter fun w => !w.failsSend).map (fun w => (w.id,
        ⟨req.method, req.pathname ++ req.search,
          (handleRequest env st.store bucket
            (extractKey env req.pathname bucket) req).2.status,
          env.duration, env.nowIso⟩)) ∧
    (fetch env st req).state.subs = (st.subs.filter fun w => !w.failsSend) ∧
    (fetch env st req).state.store =
      (handleRequest env st.store bucket
        (extractKey env req.pathname bucket) req).1 := by
  have hsubcheck : ¬(cl.sub = none ∨ cl.sub = some []) := by
    rw [hsub]
    simp [hsbne]
  have hbkcheck : ¬(pl.bucket ≠ bucket) := by rw [hbk]; exact fun h => h rfl
  simp only [fetch, hup, Bool.false_eq_true, if_false, hsegs, hah, htok,
    if_neg hfoo, hsplit, hdec, if_neg hsubcheck, hver,
    if_neg hbkcheck, broadcastRequestInfo]
  refine ⟨?_, ?_, ?_, ?_⟩ <;> trivial

/-- Witness for the amended C8 at a concrete request authenticated through
the `AWS4-HMAC-SHA256 Credential=` slot, with one healthy and one failing
subscriber. -/
theorem C8_amended_broadcast_witness :
    ((c8Req.upgradeHeader == some (strOf "websocket")) = false ∧
     pathSegs c8Req.pathname = [strOf "b", strOf "k"] ∧
     c8Req.authHeader = some c8Ah ∧
     (if (strOf "Bearer ").isPrefixOf c8Ah then some (c8Ah.drop 7)
      else if (strOf "AWS4-HMAC-SHA256").isPrefixOf c8Ah then
        extractCredential c8Ah
      else none) = some (strOf "a.b.c") ∧
     strOf "a.b.c" ≠ strOf "foo" ∧
     splitOnC 46 (strOf "a.b.c") = [strOf "a", strOf "b", strOf "c"] ∧
     c8Env.decodeJwtPayload (strOf "b") = some ⟨some (strOf "s")⟩ ∧
     c8Env.verifyTok (strOf "a.b.c") = some ⟨strOf "s", strOf "b"⟩) ∧
    (fetch c8Env c8St c8Req).events =
      (c8St.subs.filter fun w => !w.failsSend).map (fun w => (w.id,
        ⟨c8Req.method, c8Req.pathname ++ c8Req.search,
          (handleRequest c8Env c8St.store (strOf "b")
            (extractKey c8Env c8Req.pathname (strOf "b")) c8Req).2.status,
          c8Env.duration, c8Env.nowIso⟩)) :=
  ⟨⟨by decide, by decide, rfl, by decide, by decide, by decide, rfl, rfl⟩,
   (C8_amended_broadcast c8Env c8St c8Req (strOf "b") [strOf "k"]
      c8Ah (strOf "a.b.c") (strOf "a") (strOf "b")
      (strOf "c") (strOf "s") ⟨some (strOf "s")⟩ ⟨strOf "s", strOf "b"⟩
      (by decide) (by decide) rfl (by decide) (by decide) (by decide) rfl rfl
      (by decide) rfl rfl).2.1⟩

/-- Witness for C2 at a concrete two-part session whose table holds part
2's rows *before* part 1's: the assembled object is nevertheless
`[10, 20]` — part 1's byte first — because of the `ORDER BY
part_number`. -/
theorem C2_multipart_complete_witness :
    (c2Store.uploads.filter (fun x => x.uploadId == strOf "u") = [c2Upload] ∧
     c2Store.parts.filter (fun r => r.uploadId == strOf "u") =
       (c2Specs.map fun q => partRowsOf (strOf "u") q.num q.body q.tag).flatten ∧
     (c2Specs.map (·.num)).Nodup ∧ c2Specs ≠ []) ∧
    getObject (completeMultipartUpload trivEnv c2Store (strOf "b") (strOf "m")
        (strOf "u")).1 (strOf "b") (strOf "m") false =
      { status := 200, payload := .bytes [10, 20], contentLength := some 2,
        etagHeader := some (strOf "00000000000000000000000000000000-2") } :=
  ⟨⟨by decide, by decide, by decide, by decide⟩,
   ((C2_multipart_complete trivEnv c2Store (strOf "b") (strOf "m") (strOf "u")
      c2Upload c2Specs (by decide) (by decide) (by decide)
      (by decide)).2.1).trans (by decide)⟩

end DoS3
